import Mathlib

/-!
Verification of the `duck` task orchestrator.

Shallow embedding of the core of the repository:
* `internal/checks/check.go` / `internal/actions` — the check/action plugin
  contracts (a plugin is abstracted by its observable behaviour: whether
  `Execute` errors, the boolean its `Check()` returns, and its policy config);
* `internal/target` (`Target.Run`) — the per-target check/action failure
  policy machine;
* `internal/duck/file.go` (`Duck.RunTarget`, `Duck.CompileTargets`,
  `Duck.LoadDuckfile`, `Duck.appendTarget`, `handleCloudURL`) — the
  dependency-walking engine and the document resolver;
* `cmd/duck/defaultapp.go` — the daemon loop.

Go maps of targets are modelled as association lists keyed by the target id
(first-match lookup); the in-place mutated `lineage` map and the `Cleared`
flags are threaded through explicitly.  `os.Exit(1)` is modelled as a
distinguished outcome `exited`; machine execution of checks/actions is
abstracted by the recorded behaviour fields of each item.  The engine's
recursion is made total with a fuel parameter: `fuelOut` is an artefact of
the embedding and the theorems show it is never reached with fuel
`#targets + 1`.
-/

namespace Duck

/-- `checks.Config` (internal/checks/check.go lines 11–15): `Invert` plus the
nullable per-item policy overrides (`*bool` becomes `Option Bool`). -/
structure CheckCfg where
  invert : Bool
  cancelOnFailure : Option Bool
  exitOnFailure : Option Bool
deriving Repr, DecidableEq

/-- `actions.Config`: the nullable per-item policy overrides of an action. -/
structure ActionCfg where
  cancelOnFailure : Option Bool
  exitOnFailure : Option Bool
deriving Repr, DecidableEq

/-- One check item, abstracted by its observable behaviour: `execErr` is the
error (if any) its `Execute` returns, `status` the `Status` value its
`Execute` establishes, and `cfg` its `checks.Config`. -/
structure CheckItem where
  execErr : Option String
  status : Bool
  cfg : CheckCfg
deriving Repr, DecidableEq

/-- Every check plugin implements `Check()` as `Status != Config.Invert`
(file/rest/dummy/localstate/shell/cron checks all share this line). -/
def CheckItem.check (c : CheckItem) : Bool :=
  c.status != c.cfg.invert

/-- One action item abstracted by whether its `Execute` errors plus its
config. -/
structure ActionItem where
  execErr : Bool
  cfg : ActionCfg
deriving Repr, DecidableEq

/-- `target.Config` (part_005 lines 26–31): the target-level policy
defaults, all nullable. -/
structure TargetConfig where
  cancelOnCheckFailure : Option Bool
  cancelOnActionFailure : Option Bool
  exitOnCheckFailure : Option Bool
  exitOnActionFailure : Option Bool
deriving Repr, DecidableEq

/-- `target.Target` (part_005 lines 16–24).  The mutex is omitted: the
engine is single-threaded. -/
structure Target where
  id : String
  checks : List CheckItem
  actions : List ActionItem
  cleared : Bool
  config : TargetConfig
  dependencies : List String
deriving Repr, DecidableEq

def setCleared (t : Target) : Target := { t with cleared := true }

/-- Effective failure policy, the boolean expression used for both
`shouldExit` and `shouldCancel` in `Target.Run` (part_005 lines 89–90,
97–98, 116–117, 124–125):
`(item != nil && *item) || (item == nil && dflt != nil && *dflt)`. -/
def effectivePolicy (item dflt : Option Bool) : Bool :=
  (item.isSome && item.getD false) || (item.isNone && dflt.isSome && dflt.getD false)

/-- The errors the embedded code can return. -/
inductive RunError where
  | ctxCancelled
  | execError (msg : String)
  | checkFailCancel
  | actionFailCancel
  | targetNotFound (id : String)
  | fuelOut
deriving Repr, DecidableEq

/-- Result of a call: `ok` (nil error), `err` (a returned error) or
`exited` (`os.Exit(1)` was reached). -/
inductive Outcome where
  | ok
  | err (e : RunError)
  | exited
deriving Repr, DecidableEq

/-- Result of the check loop of `Target.Run`, with the number of checks
whose `Execute` was invoked. -/
inductive CheckPhase where
  | passedAll (n : Nat)
  | execError (msg : String) (n : Nat)
  | exitNow (n : Nat)
  | cancelNow (n : Nat)
  | softStop (n : Nat)
deriving Repr, DecidableEq

/-- The check loop of `Target.Run` (part_005 lines 79–110): execute; an
execution error is returned as-is; on a failed boolean result resolve exit
then cancel policy; otherwise soft-stop; on a passed result continue. -/
def runChecks (cfg : TargetConfig) : List CheckItem → CheckPhase
  | [] => .passedAll 0
  | c :: rest =>
    match c.execErr with
    | some msg => .execError msg 1
    | none =>
      if !c.check then
        if effectivePolicy c.cfg.exitOnFailure cfg.exitOnCheckFailure then .exitNow 1
        else if effectivePolicy c.cfg.cancelOnFailure cfg.cancelOnCheckFailure then .cancelNow 1
        else .softStop 1
      else
        match runChecks cfg rest with
        | .passedAll n => .passedAll (n + 1)
        | .execError m n => .execError m (n + 1)
        | .exitNow n => .exitNow (n + 1)
        | .cancelNow n => .cancelNow (n + 1)
        | .softStop n => .softStop (n + 1)

/-- Result of the action loop of `Target.Run`. -/
inductive ActionPhase where
  | passedAll (n : Nat)
  | exitNow (n : Nat)
  | cancelNow (n : Nat)
  | softStop (n : Nat)
deriving Repr, DecidableEq

/-- The action loop of `Target.Run` (part_005 lines 112–136): an execution
error resolves exit then cancel policy, otherwise the target soft-stops. -/
def runActions (cfg : TargetConfig) : List ActionItem → ActionPhase
  | [] => .passedAll 0
  | a :: rest =>
    if a.execErr then
      if effectivePolicy a.cfg.exitOnFailure cfg.exitOnActionFailure then .exitNow 1
      else if effectivePolicy a.cfg.cancelOnFailure cfg.cancelOnActionFailure then .cancelNow 1
      else .softStop 1
    else
      match runActions cfg rest with
      | .passedAll n => .passedAll (n + 1)
      | .exitNow n => .exitNow (n + 1)
      | .cancelNow n => .cancelNow (n + 1)
      | .softStop n => .softStop (n + 1)

/-- Result of a `Target.Run` call: the (possibly cleared) target, the
outcome, whether the body actually executed (not skipped as already
cleared / context-cancelled), and how many checks / actions executed. -/
structure BodyResult where
  target : Target
  outcome : Outcome
  executed : Bool
  checksRun : Nat
  actionsRun : Nat
deriving Repr, DecidableEq

/-- `Target.Run` (part_005 lines 63–140).  Order, as in the source: skip if
already `Cleared`; error if the context is cancelled; run the check loop;
if all checks pass run the action loop; mark `Cleared` on every `nil`
return path. -/
def Target.run (ctxCancelled : Bool) (t : Target) : BodyResult :=
  if t.cleared then ⟨t, .ok, false, 0, 0⟩
  else if ctxCancelled then ⟨t, .err .ctxCancelled, false, 0, 0⟩
  else
    match runChecks t.config t.checks with
    | .execError msg n => ⟨t, .err (.execError msg), true, n, 0⟩
    | .exitNow n => ⟨t, .exited, true, n, 0⟩
    | .cancelNow n => ⟨t, .err .checkFailCancel, true, n, 0⟩
    | .softStop n => ⟨setCleared t, .ok, true, n, 0⟩
    | .passedAll n =>
      match runActions t.config t.actions with
      | .exitNow m => ⟨t, .exited, true, n, m⟩
      | .cancelNow m => ⟨t, .err .actionFailCancel, true, n, m⟩
      | .softStop m => ⟨setCleared t, .ok, true, n, m⟩
      | .passedAll m => ⟨setCleared t, .ok, true, n, m⟩

/-! ### The target table and the dependency-walking engine
(`Duck.RunTarget`, internal/duck/file.go lines 402–446). -/

/-- `d.Targets`, the id → Target map, as an association list. -/
abbrev TargetTable := List (String × Target)

/-- Map lookup (first match). -/
def lookupT (tbl : TargetTable) (id : String) : Option Target :=
  match tbl with
  | [] => none
  | (k, t) :: rest => if k = id then some t else lookupT rest id

/-- Map update of an existing key. -/
def setT (tbl : TargetTable) (id : String) (t : Target) : TargetTable :=
  tbl.map fun p => if p.1 = id then (id, t) else p

def keysOf (tbl : TargetTable) : List String := tbl.map (·.1)

/-- Result of a `RunTarget` call: the updated table, the outcome, the ids
whose body executed (in execution order), the ids `RunTarget` was invoked
on (in call order), and the lineage map after the call.  `trace` and
`visits` are observation instrumentation; the Go code only has the table,
the error and the mutated lineage. -/
structure EngineResult where
  table : TargetTable
  outcome : Outcome
  trace : List String
  visits : List String
  lineage : List String
deriving Repr, DecidableEq

/-- `Duck.RunTarget` (file.go lines 408–446): context check; unknown-target
error; no-op if the id is already in the lineage (cycle break) or the
target is already `Cleared`; otherwise insert the id into the lineage, run
every dependency in declared order (the dependency loop is written as a
fold whose accumulator carries the table/lineage and short-circuits on the
first error, exactly the Go loop's early `return err`), then run the
target's own body. -/
def runTarget : Nat → Bool → TargetTable → String → List String → EngineResult
  | 0, _, tbl, _, lineage => ⟨tbl, .err .fuelOut, [], [], lineage⟩
  | fuel + 1, ctx, tbl, id, lineage =>
    if ctx then ⟨tbl, .err .ctxCancelled, [], [id], lineage⟩
    else
      match lookupT tbl id with
      | none => ⟨tbl, .err (.targetNotFound id), [], [id], lineage⟩
      | some t =>
        if id ∈ lineage then ⟨tbl, .ok, [], [id], lineage⟩
        else if t.cleared then ⟨tbl, .ok, [], [id], lineage⟩
        else
          let dres := t.dependencies.foldl
            (fun (acc : EngineResult) (d : String) =>
              match acc.outcome with
              | .ok =>
                let r := runTarget fuel ctx acc.table d acc.lineage
                ⟨r.table, r.outcome, acc.trace ++ r.trace,
                 acc.visits ++ r.visits, r.lineage⟩
              | _ => acc)
            (⟨tbl, .ok, [], [], id :: lineage⟩ : EngineResult)
          match dres.outcome with
          | .ok =>
            match lookupT dres.table id with
            | none => ⟨dres.table, .err (.targetNotFound id), dres.trace,
                       id :: dres.visits, dres.lineage⟩
            | some t2 =>
              let b := t2.run ctx
              ⟨setT dres.table id b.target, b.outcome,
               dres.trace ++ (if b.executed then [id] else []),
               id :: dres.visits, dres.lineage⟩
          | o => ⟨dres.table, o, dres.trace, id :: dres.visits, dres.lineage⟩

/-- One step of the dependency loop of `Duck.RunTarget`. -/
def depStep (fuel : Nat) (ctx : Bool) (acc : EngineResult) (d : String) :
    EngineResult :=
  match acc.outcome with
  | .ok =>
    let r := runTarget fuel ctx acc.table d acc.lineage
    ⟨r.table, r.outcome, acc.trace ++ r.trace, acc.visits ++ r.visits, r.lineage⟩
  | _ => acc

/-- The dependency loop of `Duck.RunTarget` (file.go lines 436–442) as a
standalone function. -/
def runDeps (fuel : Nat) (ctx : Bool) (tbl : TargetTable) (deps : List String)
    (lineage : List String) : EngineResult :=
  deps.foldl (depStep fuel ctx) ⟨tbl, .ok, [], [], lineage⟩

/-- A target is marked `Cleared` in the table. -/
def clearedIn (tbl : TargetTable) (id : String) : Prop :=
  ∃ t, lookupT tbl id = some t ∧ t.cleared = true

instance (tbl : TargetTable) (id : String) : Decidable (clearedIn tbl id) := by
  unfold clearedIn
  cases lookupT tbl id with
  | none => exact .isFalse (by simp)
  | some t => exact decidable_of_iff (t.cleared = true) (by simp)

/-- The declared dependencies of an id, as read from the table. -/
def depsOf (tbl : TargetTable) (id : String) : List String :=
  match lookupT tbl id with
  | some t => t.dependencies
  | none => []

/-- Direct dependency edge of the compiled table. -/
def directDep (tbl : TargetTable) (a b : String) : Prop :=
  ∃ t, lookupT tbl a = some t ∧ b ∈ t.dependencies

/-! ### The document resolver
(`Duck.CompileTargets`, `Duck.LoadDuckfile`, `Duck.appendTarget`,
internal/duck/file.go lines 28–116 and 362–380).

Locators are modelled by their canonical string form (`url.URL.String()`,
the key of `d.Duckfiles`).  A parsed duckfile is a `Document`: its
`_meta␣dependencies` list plus its non-`_meta` top-level target entries.
The outside world (filesystem / HTTP / object storage) is the pair of
functions `GetDuckfiles` (locator expansion) and scheme loading + YAML
parsing, abstracted as `World`.  Go's map-key iteration order inside a
document is unspecified; the model fixes the reserved `_meta` key to be
processed first and the entries in list order. -/

/-- A parsed configuration document. -/
structure Document where
  metaDeps : List String
  entries : List (String × Target)
deriving Repr, DecidableEq

/-- The external world: `expand` is `GetDuckfiles` (turn one locator string
into concrete document locators), `fetch` is the per-scheme load + parse. -/
structure World where
  expand : String → Except String (List String)
  fetch : String → Except String Document

/-- The resolver-visible state of a `Duck` object: the set of loaded
locators (`d.Duckfiles`, for deduplication) and the target table
(`d.Targets`). -/
structure DuckState where
  duckfiles : List String
  targets : TargetTable
deriving Repr, DecidableEq

/-- `konfig.Set("id", name)` followed by `NewTarget`: the document key is
injected as the target's id. -/
def withId (name : String) (t : Target) : Target := { t with id := name }

/-- `Duck.appendTarget` (file.go lines 362–380): a duplicate id is a hard
error, otherwise insert. -/
def appendTarget (st : DuckState) (name : String) (t : Target) :
    Except String DuckState :=
  match lookupT st.targets name with
  | some _ => .error ("target " ++ name ++ " already exists")
  | none => .ok { st with targets := st.targets ++ [(name, withId name t)] }

/-- The per-document merge loop of `LoadDuckfile` (file.go lines 87–113,
the non-`_meta` keys): append every entry, abort on the first error. -/
def mergeDoc (st : DuckState) : List (String × Target) → Except String DuckState
  | [] => .ok st
  | (k, t) :: rest =>
    match appendTarget st k t with
    | .error e => .error ("failed to append target " ++ k ++ ": " ++ e)
    | .ok st' => mergeDoc st' rest

/-- `Duck.LoadDuckfile` with `recurse = false` (file.go lines 52–116, the
branch taken for dependency documents): skip if the locator was already
loaded; record the locator; fetch and parse; merge the entries.  The
`_meta` dependencies of the document are NOT expanded. -/
def loadDuckfileFlat (w : World) (st : DuckState) (loc : String) :
    Except String DuckState :=
  if loc ∈ st.duckfiles then .ok st
  else
    match w.fetch loc with
    | .error e => .error e
    | .ok doc => mergeDoc { st with duckfiles := st.duckfiles ++ [loc] } doc.entries

/-- The inner loop of the `_meta` handling: load each expanded dependency
locator with `recurse = false`. -/
def loadDepList (w : World) (st : DuckState) : List String → Except String DuckState
  | [] => .ok st
  | l :: rest =>
    match loadDuckfileFlat w st l with
    | .error e => .error ("failed to load dependency duckfile " ++ l ++ ": " ++ e)
    | .ok st' => loadDepList w st' rest

/-- The `_meta␣dependencies` loop (file.go lines 91–103): expand each
declared dependency locator and load the results without recursion. -/
def loadMetaDeps (w : World) (st : DuckState) : List String → Except String DuckState
  | [] => .ok st
  | dep :: rest =>
    match w.expand dep with
    | .error e => .error ("failed to extract duckfile urls for dependency " ++ dep ++ ": " ++ e)
    | .ok depLocs =>
      match loadDepList w st depLocs with
      | .error e => .error e
      | .ok st' => loadMetaDeps w st' rest

/-- `Duck.LoadDuckfile` with `recurse = true` (the call made by
`CompileTargets` for directly supplied documents): additionally expand and
load the document's own `_meta` dependencies, one level deep. -/
def loadDuckfileRec (w : World) (st : DuckState) (loc : String) :
    Except String DuckState :=
  if loc ∈ st.duckfiles then .ok st
  else
    match w.fetch loc with
    | .error e => .error e
    | .ok doc =>
      match loadMetaDeps w { st with duckfiles := st.duckfiles ++ [loc] } doc.metaDeps with
      | .error e => .error e
      | .ok st2 => mergeDoc st2 doc.entries

/-- `Duck.LoadDuckfile` (file.go line 52), `recurse` selecting the variant. -/
def loadDuckfile (w : World) (recurse : Bool) (st : DuckState) (loc : String) :
    Except String DuckState :=
  if recurse then loadDuckfileRec w st loc else loadDuckfileFlat w st loc

/-- The inner loop of `CompileTargets`: load every expanded locator with
`recurse = true`. -/
def loadTopList (w : World) (st : DuckState) : List String → Except String DuckState
  | [] => .ok st
  | l :: rest =>
    match loadDuckfileRec w st l with
    | .error e => .error e
    | .ok st' => loadTopList w st' rest

/-- `Duck.CompileTargets` (file.go lines 28–46): for every configured file
locator, expand it and load every resulting duckfile (with dependency
recursion enabled). -/
def compileTargets (w : World) (files : List String) (st : DuckState) :
    Except String DuckState :=
  match files with
  | [] => .ok st
  | f :: rest =>
    match w.expand f with
    | .error e => .error e
    | .ok locs =>
      match loadTopList w st locs with
      | .error e => .error e
      | .ok st' => compileTargets w rest st'

/-- Result of `Duck.Run`: a resolution failure before any target executes,
or the engine's run result. -/
inductive DuckRunResult where
  | configError (e : String)
  | ran (r : EngineResult)
deriving Repr, DecidableEq

/-- `Duck.Run` (part_011 lines 56–71, list-targets mode disabled): compile
the target table from an empty state, then run the configured target with a
fresh empty lineage.  The fuel `#targets + 1` is an embedding artefact and
is always sufficient. -/
def duckRun (w : World) (files : List String) (targetName : String) : DuckRunResult :=
  match compileTargets w files ⟨[], []⟩ with
  | .error e => .configError e
  | .ok st => .ran (runTarget (st.targets.length + 1) false st.targets targetName [])

/-! ### The daemon loop (`DefaultApp`, cmd/duck/defaultapp.go lines 12–77).

One `daemonStep` is one iteration of the `for running` loop, under the
assumptions that the context is not cancelled and each `d.Run` succeeds
(the aspects C8 is about).  Time is measured in seconds of accumulated
sleeping; a `Run` phase takes no model time.  `timeoutCh` is modelled by
the absolute arming instant: it fires during a sleep iff the deadline
`armedAt + timeout` elapses strictly before the interval does (on an exact
tie Go's `select` picks nondeterministically; the model lets the interval
win, which only postpones termination to the very start of the next
sleep). -/

structure DaemonCfg where
  daemon : Bool
  interval : Nat
  iterations : Nat
  timeout : Nat
deriving Repr, DecidableEq

structure DaemonState where
  running : Bool
  iterationCount : Nat
  timeoutArmedAt : Option Nat
  now : Nat
deriving Repr, DecidableEq

/-- The initial state: `running := true`, `iterationCount := 0`,
`var timeoutCh <-chan time.Time` (nil). -/
def daemonInit : DaemonState := ⟨true, 0, none, 0⟩

/-- One iteration of the daemon loop body (defaultapp.go lines 31–74). -/
def daemonStep (cfg : DaemonCfg) (s : DaemonState) : DaemonState :=
  if !s.running then s
  else if !cfg.daemon then { s with running := false }
  else
    let armed : Option Nat :=
      match s.timeoutArmedAt with
      | none => if cfg.timeout > 0 then some s.now else none
      | some a => some a
    let deadlineFires :=
      match armed with
      | some a => decide (a + cfg.timeout < s.now + cfg.interval)
      | none => false
    if deadlineFires then
      { running := false, iterationCount := s.iterationCount,
        timeoutArmedAt := armed,
        now := armed.getD 0 + cfg.timeout }
    else
      let ic := s.iterationCount + 1
      { running := !(cfg.iterations > 0 && ic ≥ cfg.iterations),
        iterationCount := ic, timeoutArmedAt := armed,
        now := s.now + cfg.interval }

/-! ### Object-storage locator expansion
(`handleCloudURL`, internal/duck/file.go lines 272–329). -/

/-- `strings.HasSuffix`, computed on the character list. -/
def strEndsWith (s suffix : String) : Bool := suffix.data.isSuffixOf s.data

/-- `strings.HasPrefix`, computed on the character list. -/
def strStartsWith (s pfx : String) : Bool := pfx.data.isPrefixOf s.data

/-- Drop the first `n` characters. -/
def strDrop (s : String) (n : Nat) : String := ⟨s.data.drop n⟩

/-- `isDuckfile` (file.go lines 340–347). -/
def isDuckfile (filename : String) : Bool :=
  strEndsWith filename ".Duckfile" ||
  strEndsWith filename ".duck" ||
  strEndsWith filename ".duckfile" ||
  strEndsWith filename ".duck.yaml" ||
  strEndsWith filename ".duck.yml" ||
  filename == "Duckfile"

/-- The observable behaviour of an opened `gocloud.dev/blob` bucket:
listing the object keys under a prefix and testing a single key for
existence (each can fail). -/
structure BlobBucket where
  list : String → Except String (List String)
  keyExists : String → Except String Bool

/-- `strings.TrimPrefix(path, "/")`. -/
def trimSlashPrefix (path : String) : String :=
  if strStartsWith path "/" then strDrop path 1 else path

/-- `handleCloudURL` (file.go lines 272–329), given the opened bucket for
the locator's host: a path ending in `/` (or empty) is a prefix listing,
filtered by `isDuckfile`; otherwise the single object is returned iff it
exists — a missing object yields an empty expansion with no error.
`mkURL` rebuilds `scheme://host/filename`; `floc` is the original locator
string returned verbatim in the single-object case. -/
def handleCloudURL (bucket : BlobBucket) (path : String)
    (mkURL : String → String) (floc : String) : Except String (List String) :=
  let pfx := trimSlashPrefix path
  if strEndsWith pfx "/" || pfx = "" then
    match bucket.list pfx with
    | .error e => .error ("failed to list objects: " ++ e)
    | .ok keys => .ok ((keys.filter isDuckfile).map mkURL)
  else
    match bucket.keyExists pfx with
    | .error e => .error ("failed to check existence of " ++ pfx ++ ": " ++ e)
    | .ok true => .ok [floc]
    | .ok false => .ok []

/-- Add `k` to the executed-check count of a phase result. -/
def CheckPhase.bump (k : Nat) : CheckPhase → CheckPhase
  | .passedAll n => .passedAll (n + k)
  | .execError m n => .execError m (n + k)
  | .exitNow n => .exitNow (n + k)
  | .cancelNow n => .cancelNow (n + k)
  | .softStop n => .softStop (n + k)

/-- Add `k` to the executed-action count of a phase result. -/
def ActionPhase.bump (k : Nat) : ActionPhase → ActionPhase
  | .passedAll n => .passedAll (n + k)
  | .exitNow n => .exitNow (n + k)
  | .cancelNow n => .cancelNow (n + k)
  | .softStop n => .softStop (n + k)


/-- Rename a document entry to the target it is inserted as. -/
def entryTarget (p : String × Target) : String × Target := (p.1, withId p.1 p.2)


/-! ## Helper: table evolution during an engine run

A run only ever flips `Cleared` flags from `false` to `true`; `Evolves`
captures exactly that relation between two tables. -/

def Evolves (tbl tbl' : TargetTable) : Prop :=
  keysOf tbl' = keysOf tbl ∧
  ∀ id, lookupT tbl' id = lookupT tbl id ∨
    ∃ t, lookupT tbl id = some t ∧ lookupT tbl' id = some (setCleared t)


/-- Post-condition shared by `runTarget` and `runDeps` under the global
assumptions of C1 (closed, acyclic table whose bodies all succeed): the
table only evolves by clearing, the call succeeds, the lineage grows by
exactly the traced ids (all fresh, all table keys, still duplicate-free),
every traced id ends up cleared and every newly cleared id was traced,
every traced id's dependencies were either already cleared at call entry
or traced earlier, each traced id's declared dependencies appear as a
subsequence of the visit log after its own visit, and the lineage
invariant (lineage ⊆ cleared ∪ current call stack) is maintained. -/
structure CorePost (tbl0 tbl : TargetTable) (lin stack : List String)
    (r : EngineResult) : Prop where
  evolves : Evolves tbl r.table
  outcome : r.outcome = .ok
  lineage : ∃ Δ, r.lineage = Δ ++ lin ∧ (∀ x ∈ Δ, x ∉ lin) ∧
    (∀ x ∈ Δ, x ∈ keysOf tbl0) ∧ r.lineage.Nodup ∧
    ∀ x, (x ∈ r.trace ↔ x ∈ Δ)
  traceNodup : r.trace.Nodup
  traceCleared : ∀ x ∈ r.trace, clearedIn r.table x
  clearedSrc : ∀ x, clearedIn r.table x → clearedIn tbl x ∨ x ∈ r.trace
  depOrder : ∀ x ∈ r.trace, ∀ d ∈ depsOf tbl0 x,
    clearedIn tbl d ∨ ∃ l1 l2, r.trace = l1 ++ x :: l2 ∧ d ∈ l1
  declOrder : ∀ x ∈ r.trace, ∃ v1 v2, r.visits = v1 ++ x :: v2 ∧
    (depsOf tbl0 x).Sublist v2
  linInv : ∀ l ∈ r.lineage, clearedIn r.table l ∨ l ∈ stack


/-! ## Helper: the resolver invariant

`ResolveStep w st st'` summarises one successful resolver phase: the
target table only ever grows by appending; loaded locators only
accumulate; every locator that became loaded during the phase was fetched
successfully, its entries all sit in the final table under fresh ids with
duplicate-free keys; and two distinct locators that became loaded in the
same phase never declare a common id. -/
structure ResolveStep (w : World) (st st' : DuckState) : Prop where
  tgtExt : ∃ Δ, st'.targets = st.targets ++ Δ
  dfMono : ∀ l ∈ st.duckfiles, l ∈ st'.duckfiles
  merged : ∀ m ∈ st'.duckfiles, m ∉ st.duckfiles →
    ∃ doc, w.fetch m = .ok doc ∧ (doc.entries.map (·.1)).Nodup ∧
      ∀ p ∈ doc.entries, lookupT st'.targets p.1 = some (withId p.1 p.2) ∧
        lookupT st.targets p.1 = none
  sep : ∀ m1 ∈ st'.duckfiles, ∀ m2 ∈ st'.duckfiles,
    m1 ∉ st.duckfiles → m2 ∉ st.duckfiles → m1 ≠ m2 →
    ∀ doc1 doc2, w.fetch m1 = .ok doc1 → w.fetch m2 = .ok doc2 →
    ∀ k, k ∈ doc1.entries.map (·.1) → k ∈ doc2.entries.map (·.1) → False


/-! ## Helper lemmas: the check / action loops of `Target.Run` -/

theorem runDeps_nil (fuel : Nat) (ctx : Bool) (tbl : TargetTable)
    (lineage : List String) :
    runDeps fuel ctx tbl [] lineage = ⟨tbl, .ok, [], [], lineage⟩ := rfl

theorem depStep_ok (fuel : Nat) (ctx : Bool) (tbl : TargetTable)
    (tr vs lineage : List String) (d : String) :
    depStep fuel ctx ⟨tbl, .ok, tr, vs, lineage⟩ d =
      ⟨(runTarget fuel ctx tbl d lineage).table,
       (runTarget fuel ctx tbl d lineage).outcome,
       tr ++ (runTarget fuel ctx tbl d lineage).trace,
       vs ++ (runTarget fuel ctx tbl d lineage).visits,
       (runTarget fuel ctx tbl d lineage).lineage⟩ := rfl

theorem depStep_notok (fuel : Nat) (ctx : Bool) (acc : EngineResult)
    (d : String) (h : acc.outcome ≠ .ok) : depStep fuel ctx acc d = acc := by
  unfold depStep
  cases hout : acc.outcome with
  | ok => exact absurd hout h
  | err e => rfl
  | exited => rfl

theorem foldl_depStep_absorb (fuel : Nat) (ctx : Bool) (deps : List String)
    (acc : EngineResult) (h : acc.outcome ≠ .ok) :
    deps.foldl (depStep fuel ctx) acc = acc := by
  induction deps with
  | nil => rfl
  | cons d rest ih => rw [List.foldl_cons, depStep_notok fuel ctx acc d h, ih]

theorem foldl_depStep_shift (fuel : Nat) (ctx : Bool) (deps : List String)
    (tbl : TargetTable) (tr vs lineage : List String) :
    deps.foldl (depStep fuel ctx) ⟨tbl, .ok, tr, vs, lineage⟩ =
      ⟨(runDeps fuel ctx tbl deps lineage).table,
       (runDeps fuel ctx tbl deps lineage).outcome,
       tr ++ (runDeps fuel ctx tbl deps lineage).trace,
       vs ++ (runDeps fuel ctx tbl deps lineage).visits,
       (runDeps fuel ctx tbl deps lineage).lineage⟩ := by
  induction deps generalizing tbl tr vs lineage with
  | nil => simp [runDeps_nil]
  | cons d rest ih =>
    have hexp : runDeps fuel ctx tbl (d :: rest) lineage =
        rest.foldl (depStep fuel ctx)
          (depStep fuel ctx ⟨tbl, .ok, [], [], lineage⟩ d) := rfl
    rw [List.foldl_cons, depStep_ok, hexp, depStep_ok]
    cases hout : (runTarget fuel ctx tbl d lineage).outcome with
    | ok =>
      rw [ih, ih]
      simp
    | err e =>
      rw [foldl_depStep_absorb fuel ctx rest _ (by simp [hout]),
          foldl_depStep_absorb fuel ctx rest _ (by simp [hout])]
      simp
    | exited =>
      rw [foldl_depStep_absorb fuel ctx rest _ (by simp [hout]),
          foldl_depStep_absorb fuel ctx rest _ (by simp [hout])]
      simp

/-- The dependency loop unrolled one step, successful head dependency. -/
theorem runDeps_cons_ok (fuel : Nat) (ctx : Bool) (tbl : TargetTable)
    (d : String) (rest lineage : List String)
    (h : (runTarget fuel ctx tbl d lineage).outcome = .ok) :
    runDeps fuel ctx tbl (d :: rest) lineage =
      ⟨(runDeps fuel ctx (runTarget fuel ctx tbl d lineage).table rest
          (runTarget fuel ctx tbl d lineage).lineage).table,
       (runDeps fuel ctx (runTarget fuel ctx tbl d lineage).table rest
          (runTarget fuel ctx tbl d lineage).lineage).outcome,
       (runTarget fuel ctx tbl d lineage).trace ++
         (runDeps fuel ctx (runTarget fuel ctx tbl d lineage).table rest
            (runTarget fuel ctx tbl d lineage).lineage).trace,
       (runTarget fuel ctx tbl d lineage).visits ++
         (runDeps fuel ctx (runTarget fuel ctx tbl d lineage).table rest
            (runTarget fuel ctx tbl d lineage).lineage).visits,
       (runDeps fuel ctx (runTarget fuel ctx tbl d lineage).table rest
          (runTarget fuel ctx tbl d lineage).lineage).lineage⟩ := by
  have hexp : runDeps fuel ctx tbl (d :: rest) lineage =
      rest.foldl (depStep fuel ctx)
        (depStep fuel ctx ⟨tbl, .ok, [], [], lineage⟩ d) := rfl
  rw [hexp, depStep_ok, h, foldl_depStep_shift]
  simp

/-- The dependency loop unrolled one step, failing head dependency: the
error (or exit) propagates immediately and the remaining dependencies are
not visited. -/
theorem runDeps_cons_notok (fuel : Nat) (ctx : Bool) (tbl : TargetTable)
    (d : String) (rest lineage : List String)
    (h : (runTarget fuel ctx tbl d lineage).outcome ≠ .ok) :
    runDeps fuel ctx tbl (d :: rest) lineage = runTarget fuel ctx tbl d lineage := by
  have hexp : runDeps fuel ctx tbl (d :: rest) lineage =
      rest.foldl (depStep fuel ctx)
        (depStep fuel ctx ⟨tbl, .ok, [], [], lineage⟩ d) := rfl
  rw [hexp, depStep_ok, foldl_depStep_absorb fuel ctx rest _ (by simpa using h)]
  simp

/-- `runTarget` at positive fuel, with the dependency fold expressed through
`runDeps`. -/
theorem runTarget_succ (fuel : Nat) (ctx : Bool) (tbl : TargetTable)
    (id : String) (lineage : List String) :
    runTarget (fuel + 1) ctx tbl id lineage =
      (if ctx then ⟨tbl, .err .ctxCancelled, [], [id], lineage⟩
       else
        match lookupT tbl id with
        | none => ⟨tbl, .err (.targetNotFound id), [], [id], lineage⟩
        | some t =>
          if id ∈ lineage then ⟨tbl, .ok, [], [id], lineage⟩
          else if t.cleared then ⟨tbl, .ok, [], [id], lineage⟩
          else
            let dres := runDeps fuel ctx tbl t.dependencies (id :: lineage)
            match dres.outcome with
            | .ok =>
              match lookupT dres.table id with
              | none => ⟨dres.table, .err (.targetNotFound id), dres.trace,
                         id :: dres.visits, dres.lineage⟩
              | some t2 =>
                let b := t2.run ctx
                ⟨setT dres.table id b.target, b.outcome,
                 dres.trace ++ (if b.executed then [id] else []),
                 id :: dres.visits, dres.lineage⟩
            | o => ⟨dres.table, o, dres.trace, id :: dres.visits, dres.lineage⟩) := by
  rfl


theorem runChecks_cons_step (cfg : TargetConfig) (c : CheckItem)
    (l : List CheckItem) (hc : c.execErr = none) (hpass : c.check = true) :
    runChecks cfg (c :: l) = (runChecks cfg l).bump 1 := by
  simp only [runChecks, hc, hpass, Bool.not_true, Bool.false_eq_true, if_false]
  cases runChecks cfg l <;> rfl

theorem runChecks_passing_front (cfg : TargetConfig) (pre l : List CheckItem)
    (hpre : ∀ p ∈ pre, p.execErr = none ∧ p.check = true) :
    runChecks cfg (pre ++ l) = (runChecks cfg l).bump pre.length := by
  induction pre with
  | nil =>
    simp only [List.nil_append, List.length_nil]
    cases runChecks cfg l <;> rfl
  | cons c rest ih =>
    have hc := hpre c (by simp)
    rw [List.cons_append, runChecks_cons_step cfg c (rest ++ l) hc.1 hc.2,
        ih fun p hp => hpre p (by simp [hp])]
    cases runChecks cfg l <;> simp [CheckPhase.bump, Nat.add_assoc, Nat.add_comm]

theorem runChecks_all_pass (cfg : TargetConfig) (l : List CheckItem)
    (h : ∀ p ∈ l, p.execErr = none ∧ p.check = true) :
    runChecks cfg l = .passedAll l.length := by
  have := runChecks_passing_front cfg l [] h
  simpa [runChecks, CheckPhase.bump] using this

theorem runActions_cons_step (cfg : TargetConfig) (a : ActionItem)
    (l : List ActionItem) (ha : a.execErr = false) :
    runActions cfg (a :: l) = (runActions cfg l).bump 1 := by
  simp only [runActions, ha, Bool.false_eq_true, if_false]
  cases runActions cfg l <;> rfl

theorem runActions_passing_front (cfg : TargetConfig) (pre l : List ActionItem)
    (hpre : ∀ p ∈ pre, p.execErr = false) :
    runActions cfg (pre ++ l) = (runActions cfg l).bump pre.length := by
  induction pre with
  | nil =>
    simp only [List.nil_append, List.length_nil]
    cases runActions cfg l <;> rfl
  | cons a rest ih =>
    rw [List.cons_append, runActions_cons_step cfg a (rest ++ l) (hpre a (by simp)),
        ih fun p hp => hpre p (by simp [hp])]
    cases runActions cfg l <;> simp [ActionPhase.bump, Nat.add_assoc, Nat.add_comm]

/-! ## Helper lemmas: the engine -/

/-- Case analysis for `runTarget` at positive fuel: one case per return
path of `Duck.RunTarget`. -/
theorem runTarget_cases (fuel : Nat) (ctx : Bool) (tbl : TargetTable)
    (id : String) (lin : List String) (motive : EngineResult → Prop)
    (hctx : ctx = true → motive ⟨tbl, .err .ctxCancelled, [], [id], lin⟩)
    (hnf : ctx = false → lookupT tbl id = none →
      motive ⟨tbl, .err (.targetNotFound id), [], [id], lin⟩)
    (hlin : ∀ t, ctx = false → lookupT tbl id = some t → id ∈ lin →
      motive ⟨tbl, .ok, [], [id], lin⟩)
    (hclr : ∀ t, ctx = false → lookupT tbl id = some t → id ∉ lin →
      t.cleared = true → motive ⟨tbl, .ok, [], [id], lin⟩)
    (hbody : ∀ t t2, ctx = false → lookupT tbl id = some t → id ∉ lin →
      t.cleared = false →
      (runDeps fuel ctx tbl t.dependencies (id :: lin)).outcome = .ok →
      lookupT (runDeps fuel ctx tbl t.dependencies (id :: lin)).table id = some t2 →
      motive ⟨setT (runDeps fuel ctx tbl t.dependencies (id :: lin)).table id
               (t2.run ctx).target,
              (t2.run ctx).outcome,
              (runDeps fuel ctx tbl t.dependencies (id :: lin)).trace ++
                (if (t2.run ctx).executed then [id] else []),
              id :: (runDeps fuel ctx tbl t.dependencies (id :: lin)).visits,
              (runDeps fuel ctx tbl t.dependencies (id :: lin)).lineage⟩)
    (hbodynf : ∀ t, ctx = false → lookupT tbl id = some t → id ∉ lin →
      t.cleared = false →
      (runDeps fuel ctx tbl t.dependencies (id :: lin)).outcome = .ok →
      lookupT (runDeps fuel ctx tbl t.dependencies (id :: lin)).table id = none →
      motive ⟨(runDeps fuel ctx tbl t.dependencies (id :: lin)).table,
              .err (.targetNotFound id),
              (runDeps fuel ctx tbl t.dependencies (id :: lin)).trace,
              id :: (runDeps fuel ctx tbl t.dependencies (id :: lin)).visits,
              (runDeps fuel ctx tbl t.dependencies (id :: lin)).lineage⟩)
    (hdeperr : ∀ t, ctx = false → lookupT tbl id = some t → id ∉ lin →
      t.cleared = false →
      (runDeps fuel ctx tbl t.dependencies (id :: lin)).outcome ≠ .ok →
      motive ⟨(runDeps fuel ctx tbl t.dependencies (id :: lin)).table,
              (runDeps fuel ctx tbl t.dependencies (id :: lin)).outcome,
              (runDeps fuel ctx tbl t.dependencies (id :: lin)).trace,
              id :: (runDeps fuel ctx tbl t.dependencies (id :: lin)).visits,
              (runDeps fuel ctx tbl t.dependencies (id :: lin)).lineage⟩) :
    motive (runTarget (fuel + 1) ctx tbl id lin) := by
  rw [runTarget_succ]
  cases ctx with
  | true => simpa using hctx rfl
  | false =>
    simp only [Bool.false_eq_true, if_false]
    cases hl : lookupT tbl id with
    | none => exact hnf rfl hl
    | some t =>
      by_cases hmem : id ∈ lin
      · simpa [hmem] using hlin t rfl hl hmem
      · simp only [hmem, if_false, if_neg hmem]
        cases hcl : t.cleared with
        | true => simpa using hclr t rfl hl hmem hcl
        | false =>
          simp only [Bool.false_eq_true, if_false]
          cases hout : (runDeps fuel false tbl t.dependencies (id :: lin)).outcome with
          | ok =>
            cases hl2 : lookupT (runDeps fuel false tbl t.dependencies (id :: lin)).table id with
            | none =>
              have := hbodynf t rfl hl hmem hcl hout hl2
              simp only [hout, hl2]
              exact this
            | some t2 =>
              have := hbody t t2 rfl hl hmem hcl hout hl2
              simp only [hout, hl2]
              exact this
          | err e =>
            have := hdeperr t rfl hl hmem hcl (by simp [hout])
            simp only [hout] at this ⊢
            exact this
          | exited =>
            have := hdeperr t rfl hl hmem hcl (by simp [hout])
            simp only [hout] at this ⊢
            exact this

/-- Lineage monotonicity and trace freshness: a `RunTarget` call only ever
adds ids to the lineage map (nothing is ever deleted), every added id was
not in the lineage at call entry, and every id whose body executes was not
in the lineage at call entry. -/
theorem engine_lineage_fresh (fuel : Nat) :
    (∀ (ctx : Bool) (tbl : TargetTable) (id : String) (lin : List String),
      (∃ Δ, (runTarget fuel ctx tbl id lin).lineage = Δ ++ lin ∧
        ∀ x ∈ Δ, x ∉ lin) ∧
      (∀ x ∈ (runTarget fuel ctx tbl id lin).trace, x ∉ lin)) ∧
    (∀ (ctx : Bool) (tbl : TargetTable) (deps : List String) (lin : List String),
      (∃ Δ, (runDeps fuel ctx tbl deps lin).lineage = Δ ++ lin ∧
        ∀ x ∈ Δ, x ∉ lin) ∧
      (∀ x ∈ (runDeps fuel ctx tbl deps lin).trace, x ∉ lin)) := by
  induction fuel with
  | zero =>
    constructor
    · intro ctx tbl id lin
      exact ⟨⟨[], by simp [runTarget], by simp⟩, by simp [runTarget]⟩
    · intro ctx tbl deps lin
      cases deps with
      | nil => exact ⟨⟨[], by simp [runDeps_nil], by simp⟩, by simp [runDeps_nil]⟩
      | cons d rest =>
        rw [runDeps_cons_notok 0 ctx tbl d rest lin (by simp [runTarget])]
        exact ⟨⟨[], by simp [runTarget], by simp⟩, by simp [runTarget]⟩
  | succ n ih =>
    have hT : ∀ (ctx : Bool) (tbl : TargetTable) (id : String) (lin : List String),
        (∃ Δ, (runTarget (n + 1) ctx tbl id lin).lineage = Δ ++ lin ∧
          ∀ x ∈ Δ, x ∉ lin) ∧
        (∀ x ∈ (runTarget (n + 1) ctx tbl id lin).trace, x ∉ lin) := by
      intro ctx tbl id lin
      refine runTarget_cases n ctx tbl id lin
        (fun r => (∃ Δ, r.lineage = Δ ++ lin ∧ ∀ x ∈ Δ, x ∉ lin) ∧
          ∀ x ∈ r.trace, x ∉ lin) ?_ ?_ ?_ ?_ ?_ ?_ ?_
      · intro _; exact ⟨⟨[], by simp, by simp⟩, by simp⟩
      · intro _ _; exact ⟨⟨[], by simp, by simp⟩, by simp⟩
      · intro t _ _ _; exact ⟨⟨[], by simp, by simp⟩, by simp⟩
      · intro t _ _ _ _; exact ⟨⟨[], by simp, by simp⟩, by simp⟩
      · intro t t2 _ _ hmem _ _ _
        obtain ⟨⟨Δ, hΔ, hfresh⟩, htr⟩ := ih.2 ctx tbl t.dependencies (id :: lin)
        refine ⟨⟨Δ ++ [id], ?_, ?_⟩, ?_⟩
        · simpa using hΔ
        · intro x hx
          rcases List.mem_append.1 hx with hx | hx
          · exact fun hc => hfresh x hx (List.mem_cons_of_mem id hc)
          · simp only [List.mem_singleton] at hx
            exact hx ▸ hmem
        · intro x hx
          simp only [List.mem_append] at hx
          rcases hx with hx | hx
          · exact fun hc => htr x hx (List.mem_cons_of_mem id hc)
          · have hxid : x = id := by
              rcases Bool.eq_false_or_eq_true (t2.run ctx).executed with he | he
              · rw [he] at hx; simpa using hx
              · rw [he] at hx; simp at hx
            exact hxid ▸ hmem
      · intro t _ _ hmem _ _ _
        obtain ⟨⟨Δ, hΔ, hfresh⟩, htr⟩ := ih.2 ctx tbl t.dependencies (id :: lin)
        refine ⟨⟨Δ ++ [id], by simpa using hΔ, ?_⟩, ?_⟩
        · intro x hx
          rcases List.mem_append.1 hx with hx | hx
          · exact fun hc => hfresh x hx (List.mem_cons_of_mem id hc)
          · simp only [List.mem_singleton] at hx
            exact hx ▸ hmem
        · intro x hx
          exact fun hc => htr x hx (List.mem_cons_of_mem id hc)
      · intro t _ _ hmem _ _
        obtain ⟨⟨Δ, hΔ, hfresh⟩, htr⟩ := ih.2 ctx tbl t.dependencies (id :: lin)
        refine ⟨⟨Δ ++ [id], by simpa using hΔ, ?_⟩, ?_⟩
        · intro x hx
          rcases List.mem_append.1 hx with hx | hx
          · exact fun hc => hfresh x hx (List.mem_cons_of_mem id hc)
          · simp only [List.mem_singleton] at hx
            exact hx ▸ hmem
        · intro x hx
          exact fun hc => htr x hx (List.mem_cons_of_mem id hc)
    refine ⟨hT, ?_⟩
    intro ctx tbl deps lin
    induction deps generalizing tbl lin with
    | nil => exact ⟨⟨[], by simp [runDeps_nil], by simp⟩, by simp [runDeps_nil]⟩
    | cons d rest ihd =>
      by_cases hout : (runTarget (n + 1) ctx tbl d lin).outcome = .ok
      · rw [runDeps_cons_ok (n + 1) ctx tbl d rest lin hout]
        obtain ⟨⟨Δ1, hΔ1, hfresh1⟩, htr1⟩ := hT ctx tbl d lin
        obtain ⟨⟨Δ2, hΔ2, hfresh2⟩, htr2⟩ :=
          ihd (runTarget (n + 1) ctx tbl d lin).table
            (runTarget (n + 1) ctx tbl d lin).lineage
        refine ⟨⟨Δ2 ++ Δ1, ?_, ?_⟩, ?_⟩
        · simp only
          rw [hΔ2, hΔ1, List.append_assoc]
        · intro x hx
          rcases List.mem_append.1 hx with hx | hx
          · intro hc
            exact hfresh2 x hx (by rw [hΔ1]; exact List.mem_append_right Δ1 hc)
          · exact hfresh1 x hx
        · intro x hx
          simp only [List.mem_append] at hx
          rcases hx with hx | hx
          · exact htr1 x hx
          · intro hc
            exact htr2 x hx (by rw [hΔ1]; exact List.mem_append_right Δ1 hc)
      · rw [runDeps_cons_notok (n + 1) ctx tbl d rest lin hout]
        exact hT ctx tbl d lin

/-! ## Helper lemmas: table lookups -/

theorem lookupT_append (t1 t2 : TargetTable) (k : String) :
    lookupT (t1 ++ t2) k =
      (match lookupT t1 k with
       | some v => some v
       | none => lookupT t2 k) := by
  induction t1 with
  | nil => simp [lookupT]
  | cons p rest ih =>
    by_cases h : p.1 = k
    · simp [lookupT, h]
    · simpa [lookupT, h] using ih

theorem lookupT_append_left (t1 t2 : TargetTable) (k : String) (v : Target)
    (h : lookupT t1 k = some v) : lookupT (t1 ++ t2) k = some v := by
  rw [lookupT_append, h]

theorem lookupT_append_none (t1 t2 : TargetTable) (k : String) :
    lookupT (t1 ++ t2) k = none ↔
      lookupT t1 k = none ∧ lookupT t2 k = none := by
  rw [lookupT_append]
  cases h : lookupT t1 k <;> simp

theorem lookupT_of_mem_nodup (tbl : TargetTable) (k : String) (v : Target)
    (hmem : (k, v) ∈ tbl) (hnd : (tbl.map (·.1)).Nodup) :
    lookupT tbl k = some v := by
  induction tbl with
  | nil => simp at hmem
  | cons p rest ih =>
    rcases List.mem_cons.1 hmem with h | h
    · rw [← h]
      simp [lookupT]
    · have hk : p.1 ≠ k := by
        intro hpk
        have : k ∈ rest.map (·.1) := List.mem_map.2 ⟨(k, v), h, rfl⟩
        rw [List.map_cons, List.nodup_cons] at hnd
        exact hnd.1 (hpk ▸ this)
      simp only [lookupT, hk, if_neg hk]
      exact ih h (by rw [List.map_cons, List.nodup_cons] at hnd; exact hnd.2)

theorem mem_keysOf_iff_lookupT (tbl : TargetTable) (k : String) :
    k ∈ keysOf tbl ↔ (lookupT tbl k).isSome := by
  induction tbl with
  | nil => simp [keysOf, lookupT]
  | cons p rest ih =>
    by_cases h : p.1 = k
    · simp [keysOf, lookupT, h]
    · simp only [keysOf, List.map_cons, List.mem_cons, lookupT, if_neg h]
      constructor
      · intro hc
        rcases hc with hc | hc
        · exact absurd hc.symm h
        · exact ih.1 hc
      · intro hs
        exact Or.inr (ih.2 hs)

/-! ## Helper lemmas: document merging -/

theorem mergeDoc_ok (entries : List (String × Target)) (st st' : DuckState)
    (h : mergeDoc st entries = .ok st') :
    st'.duckfiles = st.duckfiles ∧
    st'.targets = st.targets ++ entries.map entryTarget ∧
    (∀ p ∈ entries, lookupT st.targets p.1 = none) ∧
    (entries.map (·.1)).Nodup := by
  induction entries generalizing st with
  | nil =>
    simp only [mergeDoc] at h
    injection h with h
    subst h
    simp
  | cons p rest ih =>
    obtain ⟨k, t⟩ := p
    simp only [mergeDoc] at h
    cases happ : appendTarget st k t with
    | error e => rw [happ] at h; simp at h
    | ok st1 =>
      rw [happ] at h
      simp only at h
      have happ' := happ
      unfold appendTarget at happ'
      cases hlk : lookupT st.targets k with
      | some v => rw [hlk] at happ'; simp at happ'
      | none =>
        rw [hlk] at happ'
        simp only at happ'
        injection happ' with happ'
        obtain ⟨hdf, htg, hfr, hnd⟩ := ih st1 h
        subst happ'
        refine ⟨by simpa using hdf, ?_, ?_, ?_⟩
        · rw [htg]
          simp [entryTarget, List.append_assoc]
        · intro q hq
          rcases List.mem_cons.1 hq with hq | hq
          · rw [hq]
            exact hlk
          · have := hfr q hq
            simp only at this
            exact ((lookupT_append_none st.targets [(k, withId k t)] q.1).1 this).1
        · rw [List.map_cons, List.nodup_cons]
          refine ⟨?_, hnd⟩
          intro hk
          obtain ⟨q, hq, hqk⟩ := List.mem_map.1 hk
          have := hfr q hq
          simp only at this
          rw [hqk] at this
          have h2 := ((lookupT_append_none st.targets [(k, withId k t)] k).1 this).2
          simp [lookupT] at h2

theorem ResolveStep.rfl' (w : World) (st : DuckState) : ResolveStep w st st where
  tgtExt := ⟨[], by simp⟩
  dfMono := fun l hl => hl
  merged := fun m hm hnm => absurd hm hnm
  sep := fun m1 hm1 _ _ hn1 _ _ _ _ _ _ _ _ _ => absurd hm1 hn1

theorem ResolveStep.comp {w : World} {st1 st2 st3 : DuckState}
    (S1 : ResolveStep w st1 st2) (S2 : ResolveStep w st2 st3) :
    ResolveStep w st1 st3 where
  tgtExt := by
    obtain ⟨Δ1, h1⟩ := S1.tgtExt
    obtain ⟨Δ2, h2⟩ := S2.tgtExt
    exact ⟨Δ1 ++ Δ2, by rw [h2, h1, List.append_assoc]⟩
  dfMono := fun l hl => S2.dfMono l (S1.dfMono l hl)
  merged := by
    intro m hm3 hnm1
    obtain ⟨Δ2, h2⟩ := S2.tgtExt
    by_cases hm2 : m ∈ st2.duckfiles
    · obtain ⟨doc, hf, hnd, hent⟩ := S1.merged m hm2 hnm1
      refine ⟨doc, hf, hnd, ?_⟩
      intro p hp
      obtain ⟨hsome, hnone⟩ := hent p hp
      exact ⟨by rw [h2]; exact lookupT_append_left _ _ _ _ hsome, hnone⟩
    · obtain ⟨doc, hf, hnd, hent⟩ := S2.merged m hm3 hm2
      refine ⟨doc, hf, hnd, ?_⟩
      intro p hp
      obtain ⟨hsome, hnone⟩ := hent p hp
      obtain ⟨Δ1, h1⟩ := S1.tgtExt
      rw [h1] at hnone
      exact ⟨hsome, ((lookupT_append_none _ _ _).1 hnone).1⟩
  sep := by
    intro m1 hm1 m2 hm2 hn1 hn2 hne doc1 doc2 hf1 hf2 k hk1 hk2
    by_cases h1 : m1 ∈ st2.duckfiles <;> by_cases h2 : m2 ∈ st2.duckfiles
    · exact S1.sep m1 h1 m2 h2 hn1 hn2 hne doc1 doc2 hf1 hf2 k hk1 hk2
    · -- m1 loaded in the first phase, m2 in the second: doc1's keys are
      -- present in st2's table while doc2's keys are absent from it.
      obtain ⟨doc1', hf1', _, hent1⟩ := S1.merged m1 h1 hn1
      rw [hf1'] at hf1
      injection hf1 with hf1
      subst hf1
      obtain ⟨doc2', hf2', _, hent2⟩ := S2.merged m2 hm2 h2
      rw [hf2'] at hf2
      injection hf2 with hf2
      subst hf2
      obtain ⟨p1, hp1, hpk1⟩ := List.mem_map.1 hk1
      obtain ⟨p2, hp2, hpk2⟩ := List.mem_map.1 hk2
      have hsome := (hent1 p1 hp1).1
      have hnone := (hent2 p2 hp2).2
      rw [hpk1] at hsome
      rw [hpk2] at hnone
      rw [hnone] at hsome
      simp at hsome
    · obtain ⟨doc2', hf2', _, hent2⟩ := S1.merged m2 h2 hn2
      rw [hf2'] at hf2
      injection hf2 with hf2
      subst hf2
      obtain ⟨doc1', hf1', _, hent1⟩ := S2.merged m1 hm1 h1
      rw [hf1'] at hf1
      injection hf1 with hf1
      subst hf1
      obtain ⟨p1, hp1, hpk1⟩ := List.mem_map.1 hk1
      obtain ⟨p2, hp2, hpk2⟩ := List.mem_map.1 hk2
      have hsome := (hent2 p2 hp2).1
      have hnone := (hent1 p1 hp1).2
      rw [hpk2] at hsome
      rw [hpk1] at hnone
      rw [hnone] at hsome
      simp at hsome
    · exact S2.sep m1 hm1 m2 hm2 h1 h2 hne doc1 doc2 hf1 hf2 k hk1 hk2

theorem resolveStep_mergeDoc (w : World) (st st' : DuckState)
    (entries : List (String × Target)) (h : mergeDoc st entries = .ok st') :
    ResolveStep w st st' := by
  obtain ⟨hdf, htg, -, -⟩ := mergeDoc_ok entries st st' h
  exact { tgtExt := ⟨entries.map entryTarget, htg⟩
          dfMono := fun l hl => hdf ▸ hl
          merged := fun m hm hnm => absurd (hdf ▸ hm) hnm
          sep := fun m1 hm1 _ _ hn1 _ _ _ _ _ _ _ _ _ => absurd (hdf ▸ hm1) hn1 }

theorem resolveStep_loadDuckfileFlat (w : World) (st st' : DuckState)
    (loc : String) (h : loadDuckfileFlat w st loc = .ok st') :
    ResolveStep w st st' := by
  unfold loadDuckfileFlat at h
  by_cases hmem : loc ∈ st.duckfiles
  · rw [if_pos hmem] at h
    injection h with h
    subst h
    exact ResolveStep.rfl' w st
  · rw [if_neg hmem] at h
    cases hf : w.fetch loc with
    | error e => rw [hf] at h; simp at h
    | ok doc =>
      rw [hf] at h
      simp only at h
      obtain ⟨hdf, htg, hfr, hnd⟩ :=
        mergeDoc_ok doc.entries { st with duckfiles := st.duckfiles ++ [loc] } st' h
      simp only at hdf htg hfr
      refine { tgtExt := ⟨doc.entries.map entryTarget, htg⟩
               dfMono := fun l hl => by rw [hdf]; exact List.mem_append_left _ hl
               merged := ?_, sep := ?_ }
      · intro m hm hnm
        have hmloc : m = loc := by
          rw [hdf] at hm
          rcases List.mem_append.1 hm with hm | hm
          · exact absurd hm hnm
          · simpa using hm
        subst hmloc
        refine ⟨doc, hf, hnd, ?_⟩
        intro p hp
        refine ⟨?_, hfr p hp⟩
        rw [htg, lookupT_append]
        rw [hfr p hp]
        exact lookupT_of_mem_nodup _ _ _
          (List.mem_map.2 ⟨p, hp, rfl⟩) (by simpa [entryTarget] using hnd)
      · intro m1 hm1 m2 hm2 hn1 hn2 hne _ _ _ _ _ _ _
        have h1 : m1 = loc := by
          rw [hdf] at hm1
          rcases List.mem_append.1 hm1 with hm | hm
          · exact absurd hm hn1
          · simpa using hm
        have h2 : m2 = loc := by
          rw [hdf] at hm2
          rcases List.mem_append.1 hm2 with hm | hm
          · exact absurd hm hn2
          · simpa using hm
        exact hne (h1.trans h2.symm)

theorem resolveStep_loadDepList (w : World) (locs : List String) :
    ∀ (st st' : DuckState), loadDepList w st locs = .ok st' →
    ResolveStep w st st' := by
  induction locs with
  | nil =>
    intro st st' h
    simp only [loadDepList] at h
    injection h with h
    subst h
    exact ResolveStep.rfl' w st
  | cons l rest ih =>
    intro st st' h
    simp only [loadDepList] at h
    cases h1 : loadDuckfileFlat w st l with
    | error e => rw [h1] at h; simp at h
    | ok st1 =>
      rw [h1] at h
      simp only at h
      exact (resolveStep_loadDuckfileFlat w st st1 l h1).comp (ih st1 st' h)

theorem resolveStep_loadMetaDeps (w : World) (deps : List String) :
    ∀ (st st' : DuckState), loadMetaDeps w st deps = .ok st' →
    ResolveStep w st st' := by
  induction deps with
  | nil =>
    intro st st' h
    simp only [loadMetaDeps] at h
    injection h with h
    subst h
    exact ResolveStep.rfl' w st
  | cons dep rest ih =>
    intro st st' h
    simp only [loadMetaDeps] at h
    cases he : w.expand dep with
    | error e => rw [he] at h; simp at h
    | ok depLocs =>
      rw [he] at h
      simp only at h
      cases h1 : loadDepList w st depLocs with
      | error e => rw [h1] at h; simp at h
      | ok st1 =>
        rw [h1] at h
        simp only at h
        exact (resolveStep_loadDepList w depLocs st st1 h1).comp (ih st1 st' h)

theorem resolveStep_loadDuckfileRec (w : World) (st st' : DuckState)
    (loc : String) (h : loadDuckfileRec w st loc = .ok st') :
    ResolveStep w st st' := by
  unfold loadDuckfileRec at h
  by_cases hmem : loc ∈ st.duckfiles
  · rw [if_pos hmem] at h
    injection h with h
    subst h
    exact ResolveStep.rfl' w st
  · rw [if_neg hmem] at h
    cases hf : w.fetch loc with
    | error e => rw [hf] at h; simp at h
    | ok doc =>
      rw [hf] at h
      simp only at h
      cases hdeps : loadMetaDeps w { st with duckfiles := st.duckfiles ++ [loc] }
          doc.metaDeps with
      | error e => rw [hdeps] at h; simp at h
      | ok st2 =>
        rw [hdeps] at h
        simp only at h
        have Sdeps := resolveStep_loadMetaDeps w doc.metaDeps _ st2 hdeps
        obtain ⟨hdf2, htg2, hfr2, hnd2⟩ := mergeDoc_ok doc.entries st2 st' h
        obtain ⟨Δd, hΔd⟩ := Sdeps.tgtExt
        simp only at hΔd
        refine { tgtExt := ?_, dfMono := ?_, merged := ?_, sep := ?_ }
        · exact ⟨Δd ++ doc.entries.map entryTarget,
            by rw [htg2, hΔd, List.append_assoc]⟩
        · intro l hl
          rw [hdf2]
          exact Sdeps.dfMono l (by simp [hl])
        · intro m hm hnm
          rw [hdf2] at hm
          by_cases hm1 : m ∈ st.duckfiles ++ [loc]
          · have hmloc : m = loc := by
              rcases List.mem_append.1 hm1 with hx | hx
              · exact absurd hx hnm
              · simpa using hx
            subst hmloc
            refine ⟨doc, hf, hnd2, ?_⟩
            intro p hp
            have hnone2 := hfr2 p hp
            refine ⟨?_, ?_⟩
            · rw [htg2, lookupT_append, hnone2]
              exact lookupT_of_mem_nodup _ _ _
                (List.mem_map.2 ⟨p, hp, rfl⟩) (by simpa [entryTarget] using hnd2)
            · rw [hΔd] at hnone2
              exact ((lookupT_append_none _ _ _).1 hnone2).1
          · obtain ⟨doc', hf', hnd', hent'⟩ := Sdeps.merged m hm hm1
            refine ⟨doc', hf', hnd', ?_⟩
            intro p hp
            obtain ⟨hsome, hnone⟩ := hent' p hp
            refine ⟨by rw [htg2]; exact lookupT_append_left _ _ _ _ hsome, hnone⟩
        · intro m1 hm1 m2 hm2 hn1 hn2 hne doc1 doc2 hf1 hf2 k hk1 hk2
          rw [hdf2] at hm1 hm2
          by_cases h1 : m1 ∈ st.duckfiles ++ [loc] <;>
            by_cases h2 : m2 ∈ st.duckfiles ++ [loc]
          · have e1 : m1 = loc := by
              rcases List.mem_append.1 h1 with hx | hx
              · exact absurd hx hn1
              · simpa using hx
            have e2 : m2 = loc := by
              rcases List.mem_append.1 h2 with hx | hx
              · exact absurd hx hn2
              · simpa using hx
            exact hne (e1.trans e2.symm)
          · -- m1 is the recursing document itself, m2 a dependency document
            have e1 : m1 = loc := by
              rcases List.mem_append.1 h1 with hx | hx
              · exact absurd hx hn1
              · simpa using hx
            subst e1
            rw [hf] at hf1
            injection hf1 with hf1
            subst hf1
            obtain ⟨doc2', hf2', _, hent2⟩ := Sdeps.merged m2 hm2 h2
            rw [hf2'] at hf2
            injection hf2 with hf2
            subst hf2
            obtain ⟨p1, hp1, hpk1⟩ := List.mem_map.1 hk1
            obtain ⟨p2, hp2, hpk2⟩ := List.mem_map.1 hk2
            have hnone := hfr2 p1 hp1
            have hsome := (hent2 p2 hp2).1
            rw [hpk1] at hnone
            rw [hpk2] at hsome
            rw [hnone] at hsome
            simp at hsome
          · have e2 : m2 = loc := by
              rcases List.mem_append.1 h2 with hx | hx
              · exact absurd hx hn2
              · simpa using hx
            subst e2
            rw [hf] at hf2
            injection hf2 with hf2
            subst hf2
            obtain ⟨doc1', hf1', _, hent1⟩ := Sdeps.merged m1 hm1 h1
            rw [hf1'] at hf1
            injection hf1 with hf1
            subst hf1
            obtain ⟨p1, hp1, hpk1⟩ := List.mem_map.1 hk1
            obtain ⟨p2, hp2, hpk2⟩ := List.mem_map.1 hk2
            have hnone := hfr2 p2 hp2
            have hsome := (hent1 p1 hp1).1
            rw [hpk2] at hnone
            rw [hpk1] at hsome
            rw [hnone] at hsome
            simp at hsome
          · exact Sdeps.sep m1 hm1 m2 hm2 h1 h2 hne doc1 doc2 hf1 hf2 k hk1 hk2

theorem resolveStep_loadTopList (w : World) (locs : List String) :
    ∀ (st st' : DuckState), loadTopList w st locs = .ok st' →
    ResolveStep w st st' := by
  induction locs with
  | nil =>
    intro st st' h
    simp only [loadTopList] at h
    injection h with h
    subst h
    exact ResolveStep.rfl' w st
  | cons l rest ih =>
    intro st st' h
    simp only [loadTopList] at h
    cases h1 : loadDuckfileRec w st l with
    | error e => rw [h1] at h; simp at h
    | ok st1 =>
      rw [h1] at h
      simp only at h
      exact (resolveStep_loadDuckfileRec w st st1 l h1).comp (ih st1 st' h)

theorem resolveStep_compileTargets (w : World) (files : List String) :
    ∀ (st st' : DuckState), compileTargets w files st = .ok st' →
    ResolveStep w st st' := by
  induction files with
  | nil =>
    intro st st' h
    simp only [compileTargets] at h
    injection h with h
    subst h
    exact ResolveStep.rfl' w st
  | cons f rest ih =>
    intro st st' h
    simp only [compileTargets] at h
    cases he : w.expand f with
    | error e => rw [he] at h; simp at h
    | ok locs =>
      rw [he] at h
      simp only at h
      cases h1 : loadTopList w st locs with
      | error e => rw [h1] at h; simp at h
      | ok st1 =>
        rw [h1] at h
        simp only at h
        exact (resolveStep_loadTopList w locs st st1 h1).comp (ih st1 st' h)

/-! ## Helper: provenance of loaded locators -/

theorem loadDuckfileFlat_parts (w : World) (st st' : DuckState) (loc : String)
    (h : loadDuckfileFlat w st loc = .ok st') :
    st'.duckfiles =
      (if loc ∈ st.duckfiles then st.duckfiles else st.duckfiles ++ [loc]) ∧
    (loc ∈ st.duckfiles → st' = st) ∧
    (loc ∉ st.duckfiles → ∃ doc, w.fetch loc = .ok doc ∧
      st'.targets = st.targets ++ doc.entries.map entryTarget) := by
  unfold loadDuckfileFlat at h
  by_cases hmem : loc ∈ st.duckfiles
  · rw [if_pos hmem] at h
    injection h with h
    subst h
    exact ⟨by rw [if_pos hmem], fun _ => rfl, fun hn => absurd hmem hn⟩
  · rw [if_neg hmem] at h
    cases hf : w.fetch loc with
    | error e => rw [hf] at h; simp at h
    | ok doc =>
      rw [hf] at h
      simp only at h
      obtain ⟨hdf, htg, -, -⟩ :=
        mergeDoc_ok doc.entries { st with duckfiles := st.duckfiles ++ [loc] } st' h
      simp only at hdf htg
      exact ⟨by rw [if_neg hmem]; exact hdf, fun hc => absurd hc hmem,
        fun _ => ⟨doc, rfl, htg⟩⟩

theorem loadDepList_new (w : World) (locs : List String) :
    ∀ (st st' : DuckState), loadDepList w st locs = .ok st' →
    ∀ m ∈ st'.duckfiles, m ∉ st.duckfiles → m ∈ locs := by
  induction locs with
  | nil =>
    intro st st' h m hm hnm
    simp only [loadDepList] at h
    injection h with h
    exact absurd (h ▸ hm) hnm
  | cons l rest ih =>
    intro st st' h m hm hnm
    simp only [loadDepList] at h
    cases h1 : loadDuckfileFlat w st l with
    | error e => rw [h1] at h; simp at h
    | ok st1 =>
      rw [h1] at h
      simp only at h
      by_cases hm1 : m ∈ st1.duckfiles
      · obtain ⟨hdf, -, -⟩ := loadDuckfileFlat_parts w st st1 l h1
        rw [hdf] at hm1
        by_cases hl : l ∈ st.duckfiles
        · rw [if_pos hl] at hm1
          exact absurd hm1 hnm
        · rw [if_neg hl] at hm1
          rcases List.mem_append.1 hm1 with hx | hx
          · exact absurd hx hnm
          · simp only [List.mem_singleton] at hx
            exact hx ▸ List.mem_cons_self l rest
      · exact List.mem_cons_of_mem l (ih st1 st' h m hm hm1)

theorem loadMetaDeps_new (w : World) (deps : List String) :
    ∀ (st st' : DuckState), loadMetaDeps w st deps = .ok st' →
    ∀ m ∈ st'.duckfiles, m ∉ st.duckfiles →
    ∃ dep ∈ deps, ∃ ds, w.expand dep = .ok ds ∧ m ∈ ds := by
  induction deps with
  | nil =>
    intro st st' h m hm hnm
    simp only [loadMetaDeps] at h
    injection h with h
    exact absurd (h ▸ hm) hnm
  | cons dep rest ih =>
    intro st st' h m hm hnm
    simp only [loadMetaDeps] at h
    cases he : w.expand dep with
    | error e => rw [he] at h; simp at h
    | ok depLocs =>
      rw [he] at h
      simp only at h
      cases h1 : loadDepList w st depLocs with
      | error e => rw [h1] at h; simp at h
      | ok st1 =>
        rw [h1] at h
        simp only at h
        by_cases hm1 : m ∈ st1.duckfiles
        · exact ⟨dep, List.mem_cons_self dep rest, depLocs, he,
            loadDepList_new w depLocs st st1 h1 m hm1 hnm⟩
        · obtain ⟨dep', hdep', ds, hds, hmds⟩ := ih st1 st' h m hm hm1
          exact ⟨dep', List.mem_cons_of_mem dep hdep', ds, hds, hmds⟩

theorem loadDuckfileRec_new (w : World) (st st' : DuckState) (loc : String)
    (h : loadDuckfileRec w st loc = .ok st') :
    ∀ m ∈ st'.duckfiles, m ∉ st.duckfiles →
    m = loc ∨ ∃ doc, w.fetch loc = .ok doc ∧
      ∃ dep ∈ doc.metaDeps, ∃ ds, w.expand dep = .ok ds ∧ m ∈ ds := by
  intro m hm hnm
  unfold loadDuckfileRec at h
  by_cases hmem : loc ∈ st.duckfiles
  · rw [if_pos hmem] at h
    injection h with h
    exact absurd (h ▸ hm) hnm
  · rw [if_neg hmem] at h
    cases hf : w.fetch loc with
    | error e => rw [hf] at h; simp at h
    | ok doc =>
      rw [hf] at h
      simp only at h
      cases hdeps : loadMetaDeps w { st with duckfiles := st.duckfiles ++ [loc] }
          doc.metaDeps with
      | error e => rw [hdeps] at h; simp at h
      | ok st2 =>
        rw [hdeps] at h
        simp only at h
        obtain ⟨hdf2, -, -, -⟩ := mergeDoc_ok doc.entries st2 st' h
        rw [hdf2] at hm
        by_cases hm1 : m ∈ st.duckfiles ++ [loc]
        · rcases List.mem_append.1 hm1 with hx | hx
          · exact absurd hx hnm
          · exact Or.inl (by simpa using hx)
        · obtain ⟨dep, hdep, ds, hds, hmds⟩ :=
            loadMetaDeps_new w doc.metaDeps _ st2 hdeps m hm hm1
          exact Or.inr ⟨doc, rfl, dep, hdep, ds, hds, hmds⟩

theorem loadTopList_new (w : World) (locs : List String) :
    ∀ (st st' : DuckState), loadTopList w st locs = .ok st' →
    ∀ m ∈ st'.duckfiles, m ∉ st.duckfiles →
    m ∈ locs ∨ ∃ l ∈ locs, ∃ doc, w.fetch l = .ok doc ∧
      ∃ dep ∈ doc.metaDeps, ∃ ds, w.expand dep = .ok ds ∧ m ∈ ds := by
  induction locs with
  | nil =>
    intro st st' h m hm hnm
    simp only [loadTopList] at h
    injection h with h
    exact absurd (h ▸ hm) hnm
  | cons l rest ih =>
    intro st st' h m hm hnm
    simp only [loadTopList] at h
    cases h1 : loadDuckfileRec w st l with
    | error e => rw [h1] at h; simp at h
    | ok st1 =>
      rw [h1] at h
      simp only at h
      by_cases hm1 : m ∈ st1.duckfiles
      · rcases loadDuckfileRec_new w st st1 l h1 m hm1 hnm with hx | hx
        · exact Or.inl (hx ▸ List.mem_cons_self l rest)
        · exact Or.inr ⟨l, List.mem_cons_self l rest, hx⟩
      · rcases ih st1 st' h m hm hm1 with hx | ⟨l', hl', hx⟩
        · exact Or.inl (List.mem_cons_of_mem l hx)
        · exact Or.inr ⟨l', List.mem_cons_of_mem l hl', hx⟩

theorem compileTargets_new (w : World) (files : List String) :
    ∀ (st st' : DuckState), compileTargets w files st = .ok st' →
    ∀ m ∈ st'.duckfiles, m ∉ st.duckfiles →
    ∃ f ∈ files, ∃ ls, w.expand f = .ok ls ∧
      (m ∈ ls ∨ ∃ l ∈ ls, ∃ doc, w.fetch l = .ok doc ∧
        ∃ dep ∈ doc.metaDeps, ∃ ds, w.expand dep = .ok ds ∧ m ∈ ds) := by
  induction files with
  | nil =>
    intro st st' h m hm hnm
    simp only [compileTargets] at h
    injection h with h
    exact absurd (h ▸ hm) hnm
  | cons f rest ih =>
    intro st st' h m hm hnm
    simp only [compileTargets] at h
    cases he : w.expand f with
    | error e => rw [he] at h; simp at h
    | ok locs =>
      rw [he] at h
      simp only at h
      cases h1 : loadTopList w st locs with
      | error e => rw [h1] at h; simp at h
      | ok st1 =>
        rw [h1] at h
        simp only at h
        by_cases hm1 : m ∈ st1.duckfiles
        · exact ⟨f, List.mem_cons_self f rest, locs, he,
            loadTopList_new w locs st st1 h1 m hm1 hnm⟩
        · obtain ⟨f', hf', hx⟩ := ih st1 st' h m hm hm1
          exact ⟨f', List.mem_cons_of_mem f hf', hx⟩

theorem Evolves.refl' (tbl : TargetTable) : Evolves tbl tbl :=
  ⟨rfl, fun _ => Or.inl rfl⟩

theorem Evolves.chain {t1 t2 t3 : TargetTable}
    (h1 : Evolves t1 t2) (h2 : Evolves t2 t3) : Evolves t1 t3 := by
  refine ⟨h2.1.trans h1.1, ?_⟩
  intro id
  rcases h2.2 id with h | ⟨t, ht, ht'⟩
  · rcases h1.2 id with h' | ⟨t, ht, ht'⟩
    · exact Or.inl (h.trans h')
    · exact Or.inr ⟨t, ht, h.trans ht'⟩
  · rcases h1.2 id with h' | ⟨t0, ht0, ht0'⟩
    · rw [h'] at ht
      exact Or.inr ⟨t, ht, ht'⟩
    · rw [ht0'] at ht
      injection ht with ht
      subst ht
      exact Or.inr ⟨t0, ht0, by simpa [setCleared] using ht'⟩

theorem lookupT_cons (p : String × Target) (rest : TargetTable) (k : String) :
    lookupT (p :: rest) k = if p.1 = k then some p.2 else lookupT rest k := rfl

theorem setT_cons (p : String × Target) (rest : TargetTable) (id : String)
    (v : Target) :
    setT (p :: rest) id v =
      (if p.1 = id then (id, v) else p) :: setT rest id v := rfl

theorem keysOf_setT (tbl : TargetTable) (id : String) (v : Target) :
    keysOf (setT tbl id v) = keysOf tbl := by
  induction tbl with
  | nil => rfl
  | cons p rest ih =>
    rw [setT_cons]
    by_cases hp : p.1 = id
    · rw [if_pos hp]
      show ((id, v).1 : String) :: keysOf (setT rest id v) = p.1 :: keysOf rest
      have h1 : ((id, v).1 : String) = p.1 := hp.symm
      rw [h1, ih]
    · rw [if_neg hp]
      show p.1 :: keysOf (setT rest id v) = p.1 :: keysOf rest
      rw [ih]

theorem lookupT_setT_self (tbl : TargetTable) (id : String) (t v : Target)
    (h : lookupT tbl id = some t) : lookupT (setT tbl id v) id = some v := by
  induction tbl with
  | nil => simp [lookupT] at h
  | cons p rest ih =>
    rw [setT_cons]
    by_cases hp : p.1 = id
    · rw [if_pos hp, lookupT_cons]
      simp
    · rw [if_neg hp, lookupT_cons, if_neg hp]
      rw [lookupT_cons, if_neg hp] at h
      exact ih h

theorem lookupT_setT_ne (tbl : TargetTable) (id k : String) (v : Target)
    (h : k ≠ id) : lookupT (setT tbl id v) k = lookupT tbl k := by
  induction tbl with
  | nil => rfl
  | cons p rest ih =>
    rw [setT_cons]
    by_cases hp : p.1 = id
    · rw [if_pos hp, lookupT_cons, lookupT_cons]
      have hidk : ¬(((id, v).1 : String) = k) := fun hc => h hc.symm
      have hpk : ¬(p.1 = k) := by
        rw [hp]
        exact fun hc => h hc.symm
      rw [if_neg hidk, if_neg hpk]
      exact ih
    · rw [if_neg hp, lookupT_cons, lookupT_cons]
      by_cases hk : p.1 = k
      · rw [if_pos hk, if_pos hk]
      · rw [if_neg hk, if_neg hk]
        exact ih

theorem Evolves.setT_cleared {tbl tbl' : TargetTable} (h : Evolves tbl tbl')
    (id : String) (t : Target) (ht : lookupT tbl' id = some t) :
    Evolves tbl (setT tbl' id (setCleared t)) := by
  refine Evolves.chain h ⟨keysOf_setT tbl' id (setCleared t), ?_⟩
  intro k
  by_cases hk : k = id
  · subst hk
    exact Or.inr ⟨t, ht, lookupT_setT_self tbl' k t (setCleared t) ht⟩
  · exact Or.inl (lookupT_setT_ne tbl' id k (setCleared t) hk)

theorem Evolves.cleared_mono {tbl tbl' : TargetTable} (h : Evolves tbl tbl')
    (x : String) (hc : clearedIn tbl x) : clearedIn tbl' x := by
  obtain ⟨t, ht, htc⟩ := hc
  rcases h.2 x with h' | ⟨t0, ht0, ht0'⟩
  · exact ⟨t, h' ▸ ht, htc⟩
  · exact ⟨setCleared t0, ht0', rfl⟩

theorem Evolves.lookup_orig {tbl0 tbl : TargetTable} (h : Evolves tbl0 tbl)
    (id : String) (t : Target) (ht : lookupT tbl id = some t)
    (hcl : t.cleared = false) : lookupT tbl0 id = some t := by
  rcases h.2 id with h' | ⟨t0, ht0, ht0'⟩
  · exact h' ▸ ht
  · rw [ht0'] at ht
    injection ht with ht
    rw [← ht] at hcl
    simp [setCleared] at hcl

theorem Evolves.depsOf_eq {tbl0 tbl : TargetTable} (h : Evolves tbl0 tbl)
    (id : String) : depsOf tbl id = depsOf tbl0 id := by
  unfold depsOf
  rcases h.2 id with h' | ⟨t0, ht0, ht0'⟩
  · rw [h']
  · rw [ht0, ht0']
    rfl

theorem Evolves.lookup_isSome {tbl0 tbl : TargetTable} (h : Evolves tbl0 tbl)
    (id : String) (hid : id ∈ keysOf tbl0) : (lookupT tbl id).isSome := by
  rw [← mem_keysOf_iff_lookupT, h.1]
  exact hid

theorem lookupT_mem (tbl : TargetTable) (k : String) (v : Target)
    (h : lookupT tbl k = some v) : (k, v) ∈ tbl := by
  induction tbl with
  | nil => simp [lookupT] at h
  | cons p rest ih =>
    by_cases hp : p.1 = k
    · simp only [lookupT, if_pos hp] at h
      injection h with h
      subst h
      rw [← hp, Prod.mk.eta]
      exact List.mem_cons_self _ _
    · refine List.mem_cons_of_mem p (ih ?_)
      simpa [lookupT, if_neg hp] using h

/-- `CorePost` for a no-op result (cycle break, already-cleared skip, empty
dependency list). -/
theorem corePost_skip (tbl0 tbl : TargetTable) (lin stack vs : List String)
    (hnd : lin.Nodup)
    (hlinv : ∀ l ∈ lin, clearedIn tbl l ∨ l ∈ stack) :
    CorePost tbl0 tbl lin stack ⟨tbl, .ok, [], vs, lin⟩ where
  evolves := Evolves.refl' tbl
  outcome := rfl
  lineage := ⟨[], by simp, by simp, by simp, hnd, by simp⟩
  traceNodup := List.nodup_nil
  traceCleared := by simp
  clearedSrc := fun x hx => Or.inl hx
  depOrder := by simp
  declOrder := by simp
  linInv := hlinv

theorem run_ok_clears (t : Target) (hcl : t.cleared = false)
    (hok : (t.run false).outcome = .ok) :
    (t.run false).target = setCleared t ∧ (t.run false).executed = true := by
  unfold Target.run at hok ⊢
  rw [hcl] at hok ⊢
  simp only [Bool.false_eq_true, if_false] at hok ⊢
  cases hc : runChecks t.config t.checks with
  | execError m n => rw [hc] at hok; simp at hok
  | exitNow n => rw [hc] at hok; simp at hok
  | cancelNow n => rw [hc] at hok; simp at hok
  | softStop n => exact ⟨rfl, rfl⟩
  | passedAll n =>
    rw [hc] at hok
    cases ha : runActions t.config t.actions with
    | exitNow m => rw [ha] at hok; simp at hok
    | cancelNow m => rw [ha] at hok; simp at hok
    | softStop m => exact ⟨rfl, rfl⟩
    | passedAll m => exact ⟨rfl, rfl⟩

/-- The main engine invariant for C1, proved by induction on fuel with a
nested induction on the dependency list.  `tbl0` is the compiled table,
`rank` a topological rank witnessing acyclicity, `stack` the current
recursion path (a ghost parameter: the ids of the active ancestors, all of
strictly larger rank). -/
theorem engine_main (tbl0 : TargetTable) (rank : String → Nat)
    (hclosed : ∀ p ∈ tbl0, ∀ d ∈ p.2.dependencies, d ∈ keysOf tbl0)
    (hallOk : ∀ p ∈ tbl0, p.2.cleared = false ∧ (p.2.run false).outcome = .ok)
    (hrank : ∀ p ∈ tbl0, ∀ d ∈ p.2.dependencies, rank d < rank p.1) :
    ∀ fuel : Nat,
    (∀ (tbl : TargetTable) (id : String) (lin stack : List String),
      Evolves tbl0 tbl → lin.Nodup → (∀ l ∈ lin, l ∈ keysOf tbl0) →
      (keysOf tbl0).length + 1 ≤ fuel + lin.length →
      (∀ l ∈ lin, clearedIn tbl l ∨ l ∈ stack) →
      (∀ s ∈ stack, rank id < rank s) →
      id ∈ keysOf tbl0 →
      CorePost tbl0 tbl lin stack (runTarget fuel false tbl id lin) ∧
      (id ∈ lin ∨ clearedIn (runTarget fuel false tbl id lin).table id) ∧
      (id ∉ lin → ¬clearedIn tbl id →
        ∃ tr', (runTarget fuel false tbl id lin).trace = tr' ++ [id]) ∧
      (∃ vs, (runTarget fuel false tbl id lin).visits = id :: vs)) ∧
    (∀ (tbl : TargetTable) (deps : List String) (lin stack : List String),
      Evolves tbl0 tbl → lin.Nodup → (∀ l ∈ lin, l ∈ keysOf tbl0) →
      (keysOf tbl0).length + 1 ≤ fuel + lin.length →
      (∀ l ∈ lin, clearedIn tbl l ∨ l ∈ stack) →
      (∀ d ∈ deps, d ∈ keysOf tbl0 ∧ ∀ s ∈ stack, rank d < rank s) →
      CorePost tbl0 tbl lin stack (runDeps fuel false tbl deps lin) ∧
      (∀ d ∈ deps, d ∈ lin ∨
        clearedIn (runDeps fuel false tbl deps lin).table d) ∧
      deps.Sublist (runDeps fuel false tbl deps lin).visits) := by
  intro fuel
  induction fuel with
  | zero =>
    constructor
    · intro tbl id lin stack hE hnd hlk hfuel hlinv hstack hid
      exfalso
      have hlen : lin.length ≤ (keysOf tbl0).length :=
        (List.subperm_of_subset hnd fun l hl => hlk l hl).length_le
      omega
    · intro tbl deps lin stack hE hnd hlk hfuel hlinv hdeps
      exfalso
      have hlen : lin.length ≤ (keysOf tbl0).length :=
        (List.subperm_of_subset hnd fun l hl => hlk l hl).length_le
      omega
  | succ n ih =>
    obtain ⟨ihP, ihQ⟩ := ih
    have hP : ∀ (tbl : TargetTable) (id : String) (lin stack : List String),
        Evolves tbl0 tbl → lin.Nodup → (∀ l ∈ lin, l ∈ keysOf tbl0) →
        (keysOf tbl0).length + 1 ≤ (n + 1) + lin.length →
        (∀ l ∈ lin, clearedIn tbl l ∨ l ∈ stack) →
        (∀ s ∈ stack, rank id < rank s) →
        id ∈ keysOf tbl0 →
        CorePost tbl0 tbl lin stack (runTarget (n + 1) false tbl id lin) ∧
        (id ∈ lin ∨ clearedIn (runTarget (n + 1) false tbl id lin).table id) ∧
        (id ∉ lin → ¬clearedIn tbl id →
          ∃ tr', (runTarget (n + 1) false tbl id lin).trace = tr' ++ [id]) ∧
        (∃ vs, (runTarget (n + 1) false tbl id lin).visits = id :: vs) := by
      intro tbl id lin stack hE hnd hlk hfuel hlinv hstack hid
      refine runTarget_cases n false tbl id lin
        (fun r => CorePost tbl0 tbl lin stack r ∧
          (id ∈ lin ∨ clearedIn r.table id) ∧
          (id ∉ lin → ¬clearedIn tbl id → ∃ tr', r.trace = tr' ++ [id]) ∧
          (∃ vs, r.visits = id :: vs)) ?_ ?_ ?_ ?_ ?_ ?_ ?_
      · intro h
        exact absurd h (by simp)
      · intro _ hnone
        have := hE.lookup_isSome id hid
        rw [hnone] at this
        simp at this
      · -- id already in the lineage: cycle break, no-op success
        intro t _ hl hmem
        refine ⟨corePost_skip tbl0 tbl lin stack [id] hnd hlinv,
          Or.inl hmem, fun hn _ => absurd hmem hn, ⟨[], rfl⟩⟩
      · -- target already cleared: no-op success
        intro t _ hl hmem hclr
        have hcl : clearedIn tbl id := ⟨t, hl, hclr⟩
        refine ⟨corePost_skip tbl0 tbl lin stack [id] hnd hlinv,
          Or.inr hcl, fun _ hnc => absurd hcl hnc, ⟨[], rfl⟩⟩
      · -- effective visit: run dependencies, then the body
        intro t t2 _ hl hmem hclr hdok hl2
        have ht0 : lookupT tbl0 id = some t := hE.lookup_orig id t hl hclr
        have hmem0 : (id, t) ∈ tbl0 := lookupT_mem tbl0 id t ht0
        have hQ := ihQ tbl t.dependencies (id :: lin) (id :: stack) hE
          (List.nodup_cons.2 ⟨hmem, hnd⟩)
          (by
            intro l hlm
            rcases List.mem_cons.1 hlm with h | h
            · exact h ▸ hid
            · exact hlk l h)
          (by simp only [List.length_cons]; omega)
          (by
            intro l hlm
            rcases List.mem_cons.1 hlm with h | h
            · exact Or.inr (h ▸ List.mem_cons_self id stack)
            · rcases hlinv l h with hc | hs
              · exact Or.inl hc
              · exact Or.inr (List.mem_cons_of_mem id hs))
          (by
            intro d hd
            refine ⟨hclosed (id, t) hmem0 d hd, ?_⟩
            intro s hs
            rcases List.mem_cons.1 hs with h | h
            · exact h ▸ hrank (id, t) hmem0 d hd
            · exact lt_trans (hrank (id, t) hmem0 d hd) (hstack s h))
        obtain ⟨QP, Qdeps, Qsub⟩ := hQ
        obtain ⟨Δ, hΔ, hΔfresh, hΔkeys, hlinNodup, hiff⟩ := QP.lineage
        have hidΔ : id ∉ Δ := fun hc =>
          hΔfresh id hc (List.mem_cons_self id lin)
        have hidtr : id ∉ (runDeps n false tbl t.dependencies (id :: lin)).trace :=
          fun hc => hidΔ ((hiff id).1 hc)
        have hnc2 : ¬clearedIn (runDeps n false tbl t.dependencies (id :: lin)).table id := by
          intro hc
          rcases QP.clearedSrc id hc with hc' | hc'
          · obtain ⟨t', hl', hct'⟩ := hc'
            rw [hl] at hl'
            injection hl' with hl'
            rw [← hl'] at hct'
            rw [hclr] at hct'
            simp at hct'
          · exact hidtr hc'
        have ht2 : t2 = t := by
          rcases QP.evolves.2 id with h | ⟨t', hlt', hlt2⟩
          · rw [hl2, hl] at h
            injection h
          · exfalso
            exact hnc2 ⟨t2, hl2, by
              rw [hl2] at hlt2
              injection hlt2 with hlt2
              rw [hlt2]
              rfl⟩
        subst ht2
        have hbok : (t2.run false).outcome = .ok :=
          (hallOk (id, t2) hmem0).2
        obtain ⟨hbtgt, hbexec⟩ := run_ok_clears t2 hclr hbok
        rw [hbexec, hbtgt]
        simp only [if_true]
        have hsete : Evolves
            (runDeps n false tbl t2.dependencies (id :: lin)).table
            (setT (runDeps n false tbl t2.dependencies (id :: lin)).table id
              (setCleared t2)) :=
          Evolves.setT_cleared (Evolves.refl' _) id t2 hl2
        have hclrFin : clearedIn
            (setT (runDeps n false tbl t2.dependencies (id :: lin)).table id
              (setCleared t2)) id :=
          ⟨setCleared t2, lookupT_setT_self _ id t2 (setCleared t2) hl2, rfl⟩
        have hdeps0 : depsOf tbl0 id = t2.dependencies := by
          unfold depsOf
          rw [ht0]
        refine ⟨?_, Or.inr hclrFin, fun _ _ => ⟨_, rfl⟩, ⟨_, rfl⟩⟩
        refine { evolves := ?_, outcome := hbok, lineage := ?_,
                 traceNodup := ?_, traceCleared := ?_, clearedSrc := ?_,
                 depOrder := ?_, declOrder := ?_, linInv := ?_ }
        · exact Evolves.setT_cleared QP.evolves id t2 hl2
        · refine ⟨Δ ++ [id], ?_, ?_, ?_, hlinNodup, ?_⟩
          · simp only
            rw [hΔ]
            simp
          · intro x hx
            rcases List.mem_append.1 hx with hx | hx
            · exact fun hc =>
                hΔfresh x hx (List.mem_cons_of_mem id hc)
            · simp only [List.mem_singleton] at hx
              exact hx ▸ hmem
          · intro x hx
            rcases List.mem_append.1 hx with hx | hx
            · exact hΔkeys x hx
            · simp only [List.mem_singleton] at hx
              exact hx ▸ hid
          · intro x
            simp only [List.mem_append, List.mem_singleton]
            constructor
            · intro hx
              rcases hx with hx | hx
              · exact Or.inl ((hiff x).1 hx)
              · exact Or.inr hx
            · intro hx
              rcases hx with hx | hx
              · exact Or.inl ((hiff x).2 hx)
              · exact Or.inr hx
        · refine List.Nodup.append QP.traceNodup (List.nodup_singleton id) ?_
          intro a ha hb
          simp only [List.mem_singleton] at hb
          exact hidtr (hb ▸ ha)
        · intro x hx
          rcases List.mem_append.1 hx with hx | hx
          · exact hsete.cleared_mono x (QP.traceCleared x hx)
          · simp only [List.mem_singleton] at hx
            exact hx ▸ hclrFin
        · intro x hx
          by_cases hxid : x = id
          · exact Or.inr (List.mem_append_right _ (by simp [hxid]))
          · have : lookupT (setT (runDeps n false tbl t2.dependencies
                (id :: lin)).table id (setCleared t2)) x =
                lookupT (runDeps n false tbl t2.dependencies (id :: lin)).table x :=
              lookupT_setT_ne _ id x (setCleared t2) hxid
            obtain ⟨tx, hlx, hcx⟩ := hx
            rw [this] at hlx
            rcases QP.clearedSrc x ⟨tx, hlx, hcx⟩ with h | h
            · exact Or.inl h
            · exact Or.inr (List.mem_append_left _ h)
        · intro x hx d hd
          rcases List.mem_append.1 hx with hx | hx
          · rcases QP.depOrder x hx d hd with h | ⟨l1, l2, hdec, hdl⟩
            · obtain ⟨tx, hlx, hcx⟩ := h
              by_cases hdid : d = id
              · exfalso
                rw [hdid, hl] at hlx
                injection hlx with hlx
                rw [← hlx] at hcx
                rw [hclr] at hcx
                simp at hcx
              · exact Or.inl ⟨tx, hlx, hcx⟩
            · exact Or.inr ⟨l1, l2 ++ [id], by rw [hdec]; simp, hdl⟩
          · simp only [List.mem_singleton] at hx
            subst hx
            rw [hdeps0] at hd
            rcases Qdeps d hd with hdl | hdc
            · rcases List.mem_cons.1 hdl with h | h
              · exfalso
                exact absurd (h ▸ hrank (x, t2) hmem0 d hd :
                  rank d < rank d) (lt_irrefl _)
              · rcases hlinv d h with hc | hs
                · exact Or.inl hc
                · exfalso
                  exact absurd (hrank (x, t2) hmem0 d hd)
                    (not_lt_of_gt (hstack d hs))
            · rcases QP.clearedSrc d hdc with h | h
              · exact Or.inl h
              · exact Or.inr ⟨(runDeps n false tbl t2.dependencies
                  (x :: lin)).trace, [], by simp, h⟩
        · intro x hx
          rcases List.mem_append.1 hx with hx | hx
          · obtain ⟨v1, v2, hv, hsub⟩ := QP.declOrder x hx
            exact ⟨id :: v1, v2, by simp only; rw [hv]; rfl, hsub⟩
          · simp only [List.mem_singleton] at hx
            subst hx
            refine ⟨[], (runDeps n false tbl t2.dependencies (x :: lin)).visits,
              by simp, ?_⟩
            rw [hdeps0]
            exact Qsub
        · intro l hlm
          rcases QP.linInv l hlm with hc | hs
          · exact Or.inl (hsete.cleared_mono l hc)
          · rcases List.mem_cons.1 hs with h | h
            · exact Or.inl (h ▸ hclrFin)
            · exact Or.inr h
      · -- refetch of the target failed: impossible, keys are preserved
        intro t _ hl hmem hclr hdok hl2
        exfalso
        have ht0 : lookupT tbl0 id = some t := hE.lookup_orig id t hl hclr
        have hmem0 : (id, t) ∈ tbl0 := lookupT_mem tbl0 id t ht0
        have hQ := ihQ tbl t.dependencies (id :: lin) (id :: stack) hE
          (List.nodup_cons.2 ⟨hmem, hnd⟩)
          (by
            intro l hlm
            rcases List.mem_cons.1 hlm with h | h
            · exact h ▸ hid
            · exact hlk l h)
          (by simp only [List.length_cons]; omega)
          (by
            intro l hlm
            rcases List.mem_cons.1 hlm with h | h
            · exact Or.inr (h ▸ List.mem_cons_self id stack)
            · rcases hlinv l h with hc | hs
              · exact Or.inl hc
              · exact Or.inr (List.mem_cons_of_mem id hs))
          (by
            intro d hd
            refine ⟨hclosed (id, t) hmem0 d hd, ?_⟩
            intro s hs
            rcases List.mem_cons.1 hs with h | h
            · exact h ▸ hrank (id, t) hmem0 d hd
            · exact lt_trans (hrank (id, t) hmem0 d hd) (hstack s h))
        have := hQ.1.evolves
        have hsome := (Evolves.chain hE this).lookup_isSome id hid
        rw [hl2] at hsome
        simp at hsome
      · -- a dependency errored: impossible, all bodies succeed
        intro t _ hl hmem hclr hdno
        exfalso
        have ht0 : lookupT tbl0 id = some t := hE.lookup_orig id t hl hclr
        have hmem0 : (id, t) ∈ tbl0 := lookupT_mem tbl0 id t ht0
        have hQ := ihQ tbl t.dependencies (id :: lin) (id :: stack) hE
          (List.nodup_cons.2 ⟨hmem, hnd⟩)
          (by
            intro l hlm
            rcases List.mem_cons.1 hlm with h | h
            · exact h ▸ hid
            · exact hlk l h)
          (by simp only [List.length_cons]; omega)
          (by
            intro l hlm
            rcases List.mem_cons.1 hlm with h | h
            · exact Or.inr (h ▸ List.mem_cons_self id stack)
            · rcases hlinv l h with hc | hs
              · exact Or.inl hc
              · exact Or.inr (List.mem_cons_of_mem id hs))
          (by
            intro d hd
            refine ⟨hclosed (id, t) hmem0 d hd, ?_⟩
            intro s hs
            rcases List.mem_cons.1 hs with h | h
            · exact h ▸ hrank (id, t) hmem0 d hd
            · exact lt_trans (hrank (id, t) hmem0 d hd) (hstack s h))
        exact hdno hQ.1.outcome
    refine ⟨hP, ?_⟩
    intro tbl deps lin stack
    induction deps generalizing tbl lin with
    | nil =>
      intro hE hnd hlk hfuel hlinv hdeps
      rw [runDeps_nil]
      exact ⟨corePost_skip tbl0 tbl lin stack [] hnd hlinv,
        by simp, List.nil_sublist _⟩
    | cons d rest ihrest =>
      intro hE hnd hlk hfuel hlinv hdeps
      have hd := hdeps d (List.mem_cons_self d rest)
      obtain ⟨P1, P1id, P1tr, P1vs⟩ :=
        hP tbl d lin stack hE hnd hlk hfuel hlinv hd.2 hd.1
      rw [runDeps_cons_ok (n + 1) false tbl d rest lin P1.outcome]
      obtain ⟨Δ1, hΔ1, hΔ1fresh, hΔ1keys, hlin1Nodup, hiff1⟩ := P1.lineage
      have hr2 := ihrest (runTarget (n + 1) false tbl d lin).table
        (runTarget (n + 1) false tbl d lin).lineage
        (hE.chain P1.evolves) hlin1Nodup
        (by
          intro l hlm
          rw [hΔ1] at hlm
          rcases List.mem_append.1 hlm with h | h
          · exact hΔ1keys l h
          · exact hlk l h)
        (by
          have : lin.length ≤ (runTarget (n + 1) false tbl d lin).lineage.length := by
            rw [hΔ1]
            simp
          omega)
        P1.linInv
        (fun d' hd' => hdeps d' (List.mem_cons_of_mem d hd'))
      obtain ⟨Q2, Q2deps, Q2sub⟩ := hr2
      obtain ⟨Δ2, hΔ2, hΔ2fresh, hΔ2keys, hlin2Nodup, hiff2⟩ := Q2.lineage
      refine ⟨?_, ?_, ?_⟩
      · refine { evolves := P1.evolves.chain Q2.evolves,
                 outcome := Q2.outcome, lineage := ?_, traceNodup := ?_,
                 traceCleared := ?_, clearedSrc := ?_, depOrder := ?_,
                 declOrder := ?_, linInv := ?_ }
        · refine ⟨Δ2 ++ Δ1, ?_, ?_, ?_, hlin2Nodup, ?_⟩
          · simp only
            rw [hΔ2, hΔ1, List.append_assoc]
          · intro x hx
            rcases List.mem_append.1 hx with hx | hx
            · intro hc
              exact hΔ2fresh x hx (by rw [hΔ1]; exact List.mem_append_right Δ1 hc)
            · exact hΔ1fresh x hx
          · intro x hx
            rcases List.mem_append.1 hx with hx | hx
            · exact hΔ2keys x hx
            · exact hΔ1keys x hx
          · intro x
            simp only [List.mem_append]
            constructor
            · intro hx
              rcases hx with hx | hx
              · exact Or.inr ((hiff1 x).1 hx)
              · exact Or.inl ((hiff2 x).1 hx)
            · intro hx
              rcases hx with hx | hx
              · exact Or.inr ((hiff2 x).2 hx)
              · exact Or.inl ((hiff1 x).2 hx)
        · refine List.Nodup.append P1.traceNodup Q2.traceNodup ?_
          intro a ha hb
          have ha1 : a ∈ Δ1 := (hiff1 a).1 ha
          have hb2 : a ∈ Δ2 := (hiff2 a).1 hb
          exact hΔ2fresh a hb2 (by rw [hΔ1]; exact List.mem_append_left lin ha1)
        · intro x hx
          rcases List.mem_append.1 hx with hx | hx
          · exact Q2.evolves.cleared_mono x (P1.traceCleared x hx)
          · exact Q2.traceCleared x hx
        · intro x hx
          rcases Q2.clearedSrc x hx with h | h
          · rcases P1.clearedSrc x h with h' | h'
            · exact Or.inl h'
            · exact Or.inr (List.mem_append_left _ h')
          · exact Or.inr (List.mem_append_right _ h)
        · intro x hx d' hd'
          rcases List.mem_append.1 hx with hx | hx
          · rcases P1.depOrder x hx d' hd' with h | ⟨l1, l2, hdec, hdl⟩
            · exact Or.inl h
            · exact Or.inr ⟨l1, l2 ++ (runDeps (n + 1) false
                (runTarget (n + 1) false tbl d lin).table rest
                (runTarget (n + 1) false tbl d lin).lineage).trace,
                by simp only; rw [hdec]; simp, hdl⟩
          · rcases Q2.depOrder x hx d' hd' with h | ⟨l1, l2, hdec, hdl⟩
            · rcases P1.clearedSrc d' h with h' | h'
              · exact Or.inl h'
              · obtain ⟨s1, s2, hs⟩ := List.append_of_mem hx
                refine Or.inr ⟨(runTarget (n + 1) false tbl d lin).trace ++ s1,
                  s2, by simp only; rw [hs]; simp, List.mem_append_left _ h'⟩
            · exact Or.inr ⟨(runTarget (n + 1) false tbl d lin).trace ++ l1,
                l2, by simp only; rw [hdec]; simp, List.mem_append_right _ hdl⟩
        · intro x hx
          rcases List.mem_append.1 hx with hx | hx
          · obtain ⟨v1, v2, hv, hsub⟩ := P1.declOrder x hx
            refine ⟨v1, v2 ++ (runDeps (n + 1) false
              (runTarget (n + 1) false tbl d lin).table rest
              (runTarget (n + 1) false tbl d lin).lineage).visits,
              by simp only; rw [hv]; simp, ?_⟩
            exact hsub.trans (List.sublist_append_left v2 _)
          · obtain ⟨v1, v2, hv, hsub⟩ := Q2.declOrder x hx
            exact ⟨(runTarget (n + 1) false tbl d lin).visits ++ v1, v2,
              by simp only; rw [hv]; simp, hsub⟩
        · exact Q2.linInv
      · intro d' hd'
        rcases List.mem_cons.1 hd' with h | h
        · subst h
          rcases P1id with h | h
          · exact Or.inl h
          · exact Or.inr (Q2.evolves.cleared_mono d' h)
        · rcases Q2deps d' h with h' | h'
          · rw [hΔ1] at h'
            rcases List.mem_append.1 h' with h'' | h''
            · have : d' ∈ (runTarget (n + 1) false tbl d lin).trace :=
                (hiff1 d').2 h''
              exact Or.inr (Q2.evolves.cleared_mono d'
                (P1.traceCleared d' this))
            · exact Or.inl h''
          · exact Or.inr h'
      · obtain ⟨vs, hvs⟩ := P1vs
        simp only
        rw [hvs]
        exact List.Sublist.cons₂ d
          (Q2sub.trans (List.sublist_append_right vs _))

/-! ## C1: depth-first execution of an acyclic target graph -/

/-- C1: over a compiled table that is closed (every dependency id exists),
acyclic (witnessed by a rank that strictly drops along dependency edges),
and in a fresh orchestrator instance (no target cleared, every body
succeeds), a top-level `RunTarget root` with an empty lineage and the
engine's own fuel bound: succeeds; executes no body twice; executes the
body of every transitive dependency of `root`; executes `root`'s own body
last — hence after every transitive dependency's body; executes each
executed target's dependencies' bodies before that target's own body; and
visits each executed target's dependencies in their declared order (its
declared dependency list is a subsequence of the `RunTarget` call log
after its own visit). -/
theorem c1_acyclic_run_deps_first_each_once (tbl : TargetTable)
    (root : String) (rank : String → Nat)
    (hclosed : ∀ p ∈ tbl, ∀ d ∈ p.2.dependencies, d ∈ keysOf tbl)
    (hallOk : ∀ p ∈ tbl, p.2.cleared = false ∧ (p.2.run false).outcome = .ok)
    (hrank : ∀ p ∈ tbl, ∀ d ∈ p.2.dependencies, rank d < rank p.1)
    (hroot : root ∈ keysOf tbl) :
    (runTarget ((keysOf tbl).length + 1) false tbl root []).outcome = .ok ∧
    (runTarget ((keysOf tbl).length + 1) false tbl root []).trace.Nodup ∧
    (∀ x, Relation.TransGen (directDep tbl) root x →
      x ∈ (runTarget ((keysOf tbl).length + 1) false tbl root []).trace) ∧
    (∃ tr', (runTarget ((keysOf tbl).length + 1) false tbl root []).trace =
      tr' ++ [root]) ∧
    (∀ x ∈ (runTarget ((keysOf tbl).length + 1) false tbl root []).trace,
      ∀ d ∈ depsOf tbl x,
      ∃ l1 l2, (runTarget ((keysOf tbl).length + 1) false tbl root []).trace =
        l1 ++ x :: l2 ∧ d ∈ l1) ∧
    (∀ x ∈ (runTarget ((keysOf tbl).length + 1) false tbl root []).trace,
      ∃ v1 v2, (runTarget ((keysOf tbl).length + 1) false tbl root []).visits =
        v1 ++ x :: v2 ∧ (depsOf tbl x).Sublist v2) := by
  have huncl : ∀ x, ¬clearedIn tbl x := by
    intro x ⟨t, hl, hc⟩
    have := (hallOk (x, t) (lookupT_mem tbl x t hl)).1
    rw [this] at hc
    simp at hc
  obtain ⟨CP, Pid, Ptr, Pvs⟩ :=
    (engine_main tbl rank hclosed hallOk hrank ((keysOf tbl).length + 1)).1
      tbl root [] [] (Evolves.refl' tbl) List.nodup_nil (by simp)
      (by simp) (by simp) (by simp) hroot
  have hrootTr : ∃ tr',
      (runTarget ((keysOf tbl).length + 1) false tbl root []).trace =
        tr' ++ [root] :=
    Ptr (List.not_mem_nil root) (huncl root)
  have hdepStep : ∀ x ∈ (runTarget ((keysOf tbl).length + 1) false tbl root []).trace,
      ∀ d ∈ depsOf tbl x,
      ∃ l1 l2, (runTarget ((keysOf tbl).length + 1) false tbl root []).trace =
        l1 ++ x :: l2 ∧ d ∈ l1 := by
    intro x hx d hd
    rcases CP.depOrder x hx d hd with h | h
    · exact absurd h (huncl d)
    · exact h
  refine ⟨CP.outcome, CP.traceNodup, ?_, hrootTr, hdepStep, CP.declOrder⟩
  have hrootMem : root ∈ (runTarget ((keysOf tbl).length + 1) false tbl root []).trace := by
    obtain ⟨tr', htr'⟩ := hrootTr
    rw [htr']
    simp
  have hedge : ∀ a b, a ∈ (runTarget ((keysOf tbl).length + 1) false tbl root []).trace →
      directDep tbl a b →
      b ∈ (runTarget ((keysOf tbl).length + 1) false tbl root []).trace := by
    intro a b ha hab
    obtain ⟨t, hl, hbd⟩ := hab
    have hbd' : b ∈ depsOf tbl a := by
      unfold depsOf
      rw [hl]
      exact hbd
    obtain ⟨l1, l2, hdec, hbl⟩ := hdepStep a ha b hbd'
    rw [hdec]
    exact List.mem_append_left _ hbl
  intro x hx
  induction hx with
  | single h => exact hedge root _ hrootMem h
  | tail hp he ih => exact hedge _ _ ih he

/-- Witness for C1: the diamond `A → [B, C]`, `B → [C]`, `C → []`. -/
theorem c1_acyclic_run_deps_first_each_once_witness :
    (let tblW : TargetTable :=
      [("A", ⟨"A", [], [], false, ⟨none, none, none, none⟩, ["B", "C"]⟩),
       ("B", ⟨"B", [], [], false, ⟨none, none, none, none⟩, ["C"]⟩),
       ("C", ⟨"C", [], [], false, ⟨none, none, none, none⟩, []⟩)]
     (runTarget ((keysOf tblW).length + 1) false tblW "A" []).outcome = .ok ∧
     (runTarget ((keysOf tblW).length + 1) false tblW "A" []).trace.Nodup ∧
     (∀ x, Relation.TransGen (directDep tblW) "A" x →
       x ∈ (runTarget ((keysOf tblW).length + 1) false tblW "A" []).trace) ∧
     (∃ tr', (runTarget ((keysOf tblW).length + 1) false tblW "A" []).trace =
       tr' ++ ["A"]) ∧
     (∀ x ∈ (runTarget ((keysOf tblW).length + 1) false tblW "A" []).trace,
       ∀ d ∈ depsOf tblW x,
       ∃ l1 l2, (runTarget ((keysOf tblW).length + 1) false tblW "A" []).trace =
         l1 ++ x :: l2 ∧ d ∈ l1) ∧
     (∀ x ∈ (runTarget ((keysOf tblW).length + 1) false tblW "A" []).trace,
       ∃ v1 v2, (runTarget ((keysOf tblW).length + 1) false tblW "A" []).visits =
         v1 ++ x :: v2 ∧ (depsOf tblW x).Sublist v2)) := by
  exact c1_acyclic_run_deps_first_each_once _ "A"
    (fun s => if s = "A" then 2 else if s = "B" then 1 else 0)
    (by decide) (by decide) (by decide) (by decide)

/-! ## C6: a duplicate target id is a fatal resolution error -/

/-- C6: (1) `appendTarget` on an id already in the table returns the
duplicate-id error; (2) whenever a resolution pass succeeds, no two
distinct loaded documents declare a common target id, within each loaded
document the ids are pairwise distinct, and every loaded document's
entries sit in the table under their own definition — so a duplicate can
never be silently kept or overwritten; (3) a resolution error makes
`Duck.Run` return it without the engine running any target. -/
theorem c6_duplicate_target_id_fatal :
    (∀ (st : DuckState) (name : String) (t t0 : Target),
      lookupT st.targets name = some t0 →
      appendTarget st name t = .error ("target " ++ name ++ " already exists")) ∧
    (∀ (w : World) (files : List String) (st : DuckState),
      compileTargets w files ⟨[], []⟩ = .ok st →
      (∀ m1 ∈ st.duckfiles, ∀ m2 ∈ st.duckfiles, m1 ≠ m2 →
        ∀ doc1 doc2, w.fetch m1 = .ok doc1 → w.fetch m2 = .ok doc2 →
        ∀ k, k ∈ doc1.entries.map (·.1) → k ∈ doc2.entries.map (·.1) → False) ∧
      (∀ m ∈ st.duckfiles, ∀ doc, w.fetch m = .ok doc →
        (doc.entries.map (·.1)).Nodup ∧
        ∀ p ∈ doc.entries, lookupT st.targets p.1 = some (withId p.1 p.2))) ∧
    (∀ (w : World) (files : List String) (tname e : String),
      compileTargets w files ⟨[], []⟩ = .error e →
      duckRun w files tname = .configError e) := by
  refine ⟨?_, ?_, ?_⟩
  · intro st name t t0 h
    unfold appendTarget
    rw [h]
  · intro w files st h
    have S := resolveStep_compileTargets w files ⟨[], []⟩ st h
    constructor
    · intro m1 hm1 m2 hm2 hne doc1 doc2 hf1 hf2 k hk1 hk2
      exact S.sep m1 hm1 m2 hm2 (by simp) (by simp) hne doc1 doc2 hf1 hf2 k hk1 hk2
    · intro m hm doc hf
      obtain ⟨doc', hf', hnd, hent⟩ := S.merged m hm (by simp)
      rw [hf'] at hf
      injection hf with hf
      subst hf
      exact ⟨hnd, fun p hp => (hent p hp).1⟩
  · intro w files tname e h
    unfold duckRun
    rw [h]

/-- Witness for C6: a world in which every document declares target `t`;
two documents make resolution fail and `Duck.Run` abort, and a direct
`appendTarget` of the duplicate errors. -/
theorem c6_duplicate_target_id_fatal_witness :
    appendTarget
      ⟨["a"], [("t", ⟨"t", [], [], false, ⟨none, none, none, none⟩, []⟩)]⟩
      "t" ⟨"t", [], [], false, ⟨none, none, none, none⟩, []⟩ =
      .error ("target " ++ "t" ++ " already exists") ∧
    duckRun
      ⟨fun f => .ok [f],
       fun _ => .ok ⟨[], [("t", ⟨"t", [], [], false, ⟨none, none, none, none⟩, []⟩)]⟩⟩
      ["a", "b"] "x" =
      .configError "failed to append target t: target t already exists" := by
  constructor
  · exact c6_duplicate_target_id_fatal.1 _ "t" _ _ rfl
  · exact c6_duplicate_target_id_fatal.2.2 _ ["a", "b"] "x" _ rfl

/-! ## C7: dependency-document expansion is exactly one level deep -/

/-- C7: (1) loading a dependency document (`recurse = false`) records just
that one locator — whatever its own `_meta` dependencies say, they are
never expanded — while its targets are merged into the table; (2) after a
successful resolution pass every loaded locator is either an expansion of
a directly supplied file or an expansion of a `_meta` dependency of a
directly loaded document — never anything deeper. -/
theorem c7_one_level_dependency_expansion :
    (∀ (w : World) (st : DuckState) (loc : String) (st' : DuckState),
      loadDuckfileFlat w st loc = .ok st' →
      st'.duckfiles =
        (if loc ∈ st.duckfiles then st.duckfiles else st.duckfiles ++ [loc]) ∧
      (loc ∉ st.duckfiles → ∃ doc, w.fetch loc = .ok doc ∧
        st'.targets = st.targets ++ doc.entries.map entryTarget)) ∧
    (∀ (w : World) (files : List String) (st : DuckState),
      compileTargets w files ⟨[], []⟩ = .ok st →
      ∀ m ∈ st.duckfiles,
      ∃ f ∈ files, ∃ ls, w.expand f = .ok ls ∧
        (m ∈ ls ∨ ∃ l ∈ ls, ∃ doc, w.fetch l = .ok doc ∧
          ∃ dep ∈ doc.metaDeps, ∃ ds, w.expand dep = .ok ds ∧ m ∈ ds)) := by
  constructor
  · intro w st loc st' h
    obtain ⟨hdf, -, htg⟩ := loadDuckfileFlat_parts w st st' loc h
    exact ⟨hdf, htg⟩
  · intro w files st h m hm
    exact compileTargets_new w files ⟨[], []⟩ st h m hm (by simp)

/-- Witness for C7: a chain `f → d → e` of documents (each document's
`_meta` names the next): resolving `f` loads `f` and `d`; `d`'s own
dependency `e` is never expanded, and `d`'s target is merged. -/
theorem c7_one_level_dependency_expansion_witness :
    ((⟨["f", "d"],
       [("td", ⟨"td", [], [], false, ⟨none, none, none, none⟩, []⟩)]⟩ :
        DuckState).duckfiles =
      (if "d" ∈ ["f"] then ["f"] else ["f"] ++ ["d"]) ∧
     ("d" ∉ ["f"] → ∃ doc,
        (⟨fun s => .ok [s],
          fun l => if l = "f" then .ok ⟨["d"], []⟩
            else if l = "d" then
              .ok ⟨["e"], [("td", ⟨"td", [], [], false, ⟨none, none, none, none⟩, []⟩)]⟩
            else .ok ⟨[], []⟩⟩ : World).fetch "d" = .ok doc ∧
        (⟨["f", "d"],
          [("td", ⟨"td", [], [], false, ⟨none, none, none, none⟩, []⟩)]⟩ :
           DuckState).targets =
          (⟨["f"], []⟩ : DuckState).targets ++ doc.entries.map entryTarget)) ∧
    (∃ f ∈ ["f"], ∃ ls,
      (⟨fun s => .ok [s],
        fun l => if l = "f" then .ok ⟨["d"], []⟩
          else if l = "d" then
            .ok ⟨["e"], [("td", ⟨"td", [], [], false, ⟨none, none, none, none⟩, []⟩)]⟩
          else .ok ⟨[], []⟩⟩ : World).expand f = .ok ls ∧
      ("d" ∈ ls ∨ ∃ l ∈ ls, ∃ doc,
        (⟨fun s => .ok [s],
          fun l => if l = "f" then .ok ⟨["d"], []⟩
            else if l = "d" then
              .ok ⟨["e"], [("td", ⟨"td", [], [], false, ⟨none, none, none, none⟩, []⟩)]⟩
            else .ok ⟨[], []⟩⟩ : World).fetch l = .ok doc ∧
        ∃ dep ∈ doc.metaDeps, ∃ ds,
          (⟨fun s => .ok [s],
            fun l => if l = "f" then .ok ⟨["d"], []⟩
              else if l = "d" then
                .ok ⟨["e"], [("td", ⟨"td", [], [], false, ⟨none, none, none, none⟩, []⟩)]⟩
              else .ok ⟨[], []⟩⟩ : World).expand dep = .ok ds ∧ "d" ∈ ds)) := by
  constructor
  · exact c7_one_level_dependency_expansion.1 _ ⟨["f"], []⟩ "d" _ rfl
  · exact c7_one_level_dependency_expansion.2
      ⟨fun s => .ok [s],
        fun l => if l = "f" then .ok ⟨["d"], []⟩
          else if l = "d" then
            .ok ⟨["e"], [("td", ⟨"td", [], [], false, ⟨none, none, none, none⟩, []⟩)]⟩
          else .ok ⟨[], []⟩⟩ ["f"]
      ⟨["f", "d"], [("td", ⟨"td", [], [], false, ⟨none, none, none, none⟩, []⟩)]⟩
      rfl "d" (by decide)

/-! ## C3: failure-policy resolution -/

/-- C3: for every check or action item and every target, each effective
failure policy (cancel and exit are resolved by the same expression,
independently) equals the item-level override when that is explicitly set,
else the target-level default when that is explicitly set, else `false`;
in particular an item-level `false` overrides a target-level `true`. -/
theorem c3_policy_resolution :
    (∀ (i d : Option Bool), effectivePolicy i d = i.getD (d.getD false)) ∧
    (∀ (b : Bool) (d : Option Bool), effectivePolicy (some b) d = b) ∧
    (∀ (b : Bool), effectivePolicy none (some b) = b) ∧
    effectivePolicy none none = false ∧
    effectivePolicy (some false) (some true) = false := by
  refine ⟨?_, ?_, ?_, rfl, rfl⟩ <;> decide

/-! ## C4: soft stop on a non-cancelling, non-exiting check failure -/

/-- C4: when a check's effective result is a failure and both resolved
policies are `false`, `Target.Run` marks the target `Cleared`, executes no
further check and no action, and returns success (`nil`). -/
theorem c4_check_soft_stop (t : Target) (pre : List CheckItem) (c : CheckItem)
    (rest : List CheckItem)
    (hcl : t.cleared = false)
    (hchecks : t.checks = pre ++ c :: rest)
    (hpre : ∀ p ∈ pre, p.execErr = none ∧ p.check = true)
    (hc : c.execErr = none) (hfail : c.check = false)
    (hexit : effectivePolicy c.cfg.exitOnFailure t.config.exitOnCheckFailure = false)
    (hcancel : effectivePolicy c.cfg.cancelOnFailure t.config.cancelOnCheckFailure = false) :
    (t.run false).outcome = .ok ∧
    (t.run false).target = setCleared t ∧
    (t.run false).checksRun = pre.length + 1 ∧
    (t.run false).actionsRun = 0 := by
  have hrc : runChecks t.config t.checks = .softStop (pre.length + 1) := by
    rw [hchecks, runChecks_passing_front t.config pre (c :: rest) hpre]
    unfold runChecks
    rw [hc]
    simp [hfail, hexit, hcancel, CheckPhase.bump, Nat.add_comm]
  unfold Target.run
  rw [hcl]
  simp only [Bool.false_eq_true, if_false]
  rw [hrc]
  exact ⟨rfl, rfl, rfl, rfl⟩

/-! ## C2: check execution errors are always fatal, action execution
errors are policy-controlled -/

/-- C2: (1) an error returned by a check's `Execute` makes `Target.Run`
return exactly that error, whatever the four policy settings are; (2) an
error returned by a dependency's recursive `RunTarget` propagates as the
result of the caller's `RunTarget` and the caller's own body does not
execute; (3) an error returned by an action's `Execute` is resolved by the
exit/cancel/continue policy instead of being unconditionally fatal. -/
theorem c2_check_error_fatal_action_error_policied :
    (∀ (t : Target) (pre : List CheckItem) (c : CheckItem)
        (rest : List CheckItem) (msg : String),
      t.cleared = false → t.checks = pre ++ c :: rest →
      (∀ p ∈ pre, p.execErr = none ∧ p.check = true) →
      c.execErr = some msg →
      (t.run false).outcome = .err (.execError msg)) ∧
    (∀ (fuel : Nat) (tbl : TargetTable) (id : String) (lin : List String)
        (t : Target) (e : RunError),
      lookupT tbl id = some t → id ∉ lin → t.cleared = false →
      (runDeps fuel false tbl t.dependencies (id :: lin)).outcome = .err e →
      (runTarget (fuel + 1) false tbl id lin).outcome = .err e ∧
      id ∉ (runTarget (fuel + 1) false tbl id lin).trace) ∧
    (∀ (t : Target) (apre : List ActionItem) (a : ActionItem)
        (arest : List ActionItem),
      t.cleared = false →
      (∀ ch ∈ t.checks, ch.execErr = none ∧ ch.check = true) →
      t.actions = apre ++ a :: arest →
      (∀ p ∈ apre, p.execErr = false) →
      a.execErr = true →
      (t.run false).outcome =
        (if effectivePolicy a.cfg.exitOnFailure t.config.exitOnActionFailure then
          .exited
         else if effectivePolicy a.cfg.cancelOnFailure t.config.cancelOnActionFailure then
          .err .actionFailCancel
         else .ok)) := by
  refine ⟨?_, ?_, ?_⟩
  · intro t pre c rest msg hcl hchecks hpre hc
    have hrc : runChecks t.config t.checks = .execError msg (1 + pre.length) := by
      rw [hchecks, runChecks_passing_front t.config pre (c :: rest) hpre]
      simp [runChecks, hc, CheckPhase.bump]
    unfold Target.run
    rw [hcl]
    simp only [Bool.false_eq_true, if_false]
    rw [hrc]
  · intro fuel tbl id lin t e ht hmem hcl hdeps
    refine runTarget_cases fuel false tbl id lin
      (fun r => r.outcome = .err e ∧ id ∉ r.trace) ?_ ?_ ?_ ?_ ?_ ?_ ?_
    · intro h; simp at h
    · intro _ hnone; rw [ht] at hnone; simp at hnone
    · intro t' _ _ hin; exact absurd hin hmem
    · intro t' _ ht' _ hclr
      rw [ht] at ht'
      injection ht' with ht'
      rw [← ht'] at hclr
      rw [hcl] at hclr
      simp at hclr
    · intro t' t2 _ ht' _ _ hout _
      rw [ht] at ht'
      injection ht' with ht'
      rw [← ht'] at hout
      rw [hdeps] at hout
      simp at hout
    · intro t' _ ht' _ _ hout _
      rw [ht] at ht'
      injection ht' with ht'
      rw [← ht'] at hout
      rw [hdeps] at hout
      simp at hout
    · intro t' _ ht' _ _ _
      rw [ht] at ht'
      injection ht' with ht'
      subst ht'
      refine ⟨by rw [hdeps], ?_⟩
      intro hid
      exact ((engine_lineage_fresh fuel).2 false tbl t.dependencies
        (id :: lin)).2 id hid (by simp)
  · intro t apre a arest hcl hchecks hacts hapre ha
    have hrc := runChecks_all_pass t.config t.checks hchecks
    have hra : runActions t.config t.actions =
        (if effectivePolicy a.cfg.exitOnFailure t.config.exitOnActionFailure then
          ActionPhase.exitNow 1
         else if effectivePolicy a.cfg.cancelOnFailure t.config.cancelOnActionFailure then
          ActionPhase.cancelNow 1
         else ActionPhase.softStop 1).bump apre.length := by
      rw [hacts, runActions_passing_front t.config apre (a :: arest) hapre]
      simp [runActions, ha]
    unfold Target.run
    rw [hcl]
    simp only [Bool.false_eq_true, if_false]
    rw [hrc, hra]
    by_cases hex : effectivePolicy a.cfg.exitOnFailure t.config.exitOnActionFailure
    · simp [hex, ActionPhase.bump]
    · by_cases hcan : effectivePolicy a.cfg.cancelOnFailure t.config.cancelOnActionFailure
      · simp [hex, hcan, ActionPhase.bump]
      · simp [hex, hcan, ActionPhase.bump]

/-- Witness for C2, all three parts at concrete inputs: a target whose
first check's `Execute` errors; a two-target chain whose dependency fails
that way; a target whose only action's `Execute` errors under unset
policies (resolved: continue). -/
theorem c2_check_error_fatal_action_error_policied_witness :
    ((⟨"T", [⟨some "boom", true, ⟨false, some true, some true⟩⟩], [],
       false, ⟨some true, some true, some true, some true⟩, []⟩ : Target).run
        false).outcome = .err (.execError "boom") ∧
    ((runTarget 2 false
        [("P", ⟨"P", [], [], false, ⟨none, none, none, none⟩, ["C"]⟩),
         ("C", ⟨"C", [⟨some "boom", true, ⟨false, none, none⟩⟩], [],
           false, ⟨none, none, none, none⟩, []⟩)] "P" []).outcome =
      .err (.execError "boom") ∧
     "P" ∉ (runTarget 2 false
        [("P", ⟨"P", [], [], false, ⟨none, none, none, none⟩, ["C"]⟩),
         ("C", ⟨"C", [⟨some "boom", true, ⟨false, none, none⟩⟩], [],
           false, ⟨none, none, none, none⟩, []⟩)] "P" []).trace) ∧
    ((⟨"U", [], [⟨true, ⟨none, none⟩⟩], false, ⟨none, none, none, none⟩,
       []⟩ : Target).run false).outcome =
      (if effectivePolicy none none then .exited
       else if effectivePolicy none none then .err .actionFailCancel
       else .ok) := by
  refine ⟨?_, ?_, ?_⟩
  · exact c2_check_error_fatal_action_error_policied.1 _ [] _ [] "boom"
      rfl rfl (fun p hp => absurd hp (List.not_mem_nil p)) rfl
  · exact c2_check_error_fatal_action_error_policied.2.1 1 _ "P" [] _
      (.execError "boom") rfl (List.not_mem_nil "P") rfl (by decide)
  · exact c2_check_error_fatal_action_error_policied.2.2 _ []
      ⟨true, ⟨none, none⟩⟩ []
      rfl (fun ch hch => absurd hch (List.not_mem_nil ch)) rfl
      (fun p hp => absurd hp (List.not_mem_nil p)) rfl

/-! ## C5: a two-target dependency cycle terminates, each body once -/

/-- C5: for the two-target cycle `A ↔ B`, a top-level `RunTarget "A"` with
an empty lineage terminates successfully (no fuel exhaustion at the
engine's own fuel bound `#targets + 1`) and the bodies of `A` and `B` each
execute exactly once, `B` first. -/
theorem c5_two_cycle_terminates_each_body_once :
    (runTarget 3 false
      [("A", ⟨"A", [⟨none, true, ⟨false, none, none⟩⟩],
         [⟨false, ⟨none, none⟩⟩], false, ⟨none, none, none, none⟩, ["B"]⟩),
       ("B", ⟨"B", [⟨none, true, ⟨false, none, none⟩⟩],
         [⟨false, ⟨none, none⟩⟩], false, ⟨none, none, none, none⟩, ["A"]⟩)]
      "A" []).outcome = .ok ∧
    (runTarget 3 false
      [("A", ⟨"A", [⟨none, true, ⟨false, none, none⟩⟩],
         [⟨false, ⟨none, none⟩⟩], false, ⟨none, none, none, none⟩, ["B"]⟩),
       ("B", ⟨"B", [⟨none, true, ⟨false, none, none⟩⟩],
         [⟨false, ⟨none, none⟩⟩], false, ⟨none, none, none, none⟩, ["A"]⟩)]
      "A" []).trace = ["B", "A"] := by
  constructor <;> decide

/-! ## C9: the lineage set accumulates visited ids and is never pruned -/

/-- C9 counterexample: in a run of `A` (which depends on `B`), the
recursive `RunTarget` call for `B` — made with lineage `{A}` — returns
successfully, yet `B` is still a member of the lineage after the call
returns, contradicting the claim that a returned id is no longer a member
of the lineage set. -/
theorem c9_lineage_not_pruned_counterexample :
    (runTarget 2 false
      [("A", ⟨"A", [], [], false, ⟨none, none, none, none⟩, ["B"]⟩),
       ("B", ⟨"B", [], [], false, ⟨none, none, none, none⟩, []⟩)]
      "B" ["A"]).outcome = .ok ∧
    "B" ∈ (runTarget 2 false
      [("A", ⟨"A", [], [], false, ⟨none, none, none, none⟩, ["B"]⟩),
       ("B", ⟨"B", [], [], false, ⟨none, none, none, none⟩, []⟩)]
      "B" ["A"]).lineage := by
  constructor <;> decide

/-- C9 (amended): the lineage set only ever grows — every id it gains
during a `RunTarget` call was absent at call entry and ids are never
removed, so after a recursive call returns the visited id remains a member;
an id that is effectively visited (present, uncleared, not already in the
lineage) is in the lineage when its call returns; and each top-level
`Duck.Run` hands the engine a fresh empty lineage. -/
theorem c9_lineage_accumulates_per_run :
    (∀ (fuel : Nat) (ctx : Bool) (tbl : TargetTable) (id : String)
        (lin : List String),
      ∃ Δ, (runTarget fuel ctx tbl id lin).lineage = Δ ++ lin ∧
        ∀ x ∈ Δ, x ∉ lin) ∧
    (∀ (fuel : Nat) (tbl : TargetTable) (id : String) (lin : List String)
        (t : Target),
      lookupT tbl id = some t → id ∉ lin → t.cleared = false →
      id ∈ (runTarget (fuel + 1) false tbl id lin).lineage) ∧
    (∀ (w : World) (files : List String) (tname : String) (st : DuckState),
      compileTargets w files ⟨[], []⟩ = .ok st →
      duckRun w files tname =
        .ran (runTarget (st.targets.length + 1) false st.targets tname [])) := by
  refine ⟨?_, ?_, ?_⟩
  · intro fuel ctx tbl id lin
    exact ((engine_lineage_fresh fuel).1 ctx tbl id lin).1
  · intro fuel tbl id lin t ht hmem hcl
    refine runTarget_cases fuel false tbl id lin
      (fun r => id ∈ r.lineage) ?_ ?_ ?_ ?_ ?_ ?_ ?_
    · intro h; simp at h
    · intro _ hnone; rw [ht] at hnone; simp at hnone
    · intro t' _ _ hin; exact absurd hin hmem
    · intro t' _ ht' _ hclr
      rw [ht] at ht'
      injection ht' with ht'
      rw [← ht', hcl] at hclr
      simp at hclr
    · intro t' t2 _ ht' _ _ _ _
      obtain ⟨Δ, hΔ, -⟩ :=
        ((engine_lineage_fresh fuel).2 false tbl t'.dependencies (id :: lin)).1
      simp only [hΔ]
      simp
    · intro t' _ ht' _ _ _ _
      obtain ⟨Δ, hΔ, -⟩ :=
        ((engine_lineage_fresh fuel).2 false tbl t'.dependencies (id :: lin)).1
      simp only [hΔ]
      simp
    · intro t' _ ht' _ _ _
      obtain ⟨Δ, hΔ, -⟩ :=
        ((engine_lineage_fresh fuel).2 false tbl t'.dependencies (id :: lin)).1
      simp only [hΔ]
      simp
  · intro w files tname st hcomp
    unfold duckRun
    rw [hcomp]

/-- Witness for the amended C9: a single uncleared target `B` is in the
lineage after its own top-level call. -/
theorem c9_lineage_accumulates_per_run_witness :
    "B" ∈ (runTarget 1 false
      [("B", ⟨"B", [], [], false, ⟨none, none, none, none⟩, []⟩)]
      "B" []).lineage := by
  exact c9_lineage_accumulates_per_run.2.1 0 _ "B" [] _ rfl (by simp) rfl

/-- Witness for C4, at the spec's own scenario: a failing check whose
per-item `cancelOnFailure=false` override sits under a target-level
`cancelOnCheckFailure=true`; the target soft-stops with success. -/
theorem c4_check_soft_stop_witness :
    ((⟨"T", [⟨none, false, ⟨false, some false, none⟩⟩], [⟨false, ⟨none, none⟩⟩],
       false, ⟨some true, none, none, none⟩, []⟩ : Target).run false).outcome = .ok ∧
    ((⟨"T", [⟨none, false, ⟨false, some false, none⟩⟩], [⟨false, ⟨none, none⟩⟩],
       false, ⟨some true, none, none, none⟩, []⟩ : Target).run false).target =
      setCleared ⟨"T", [⟨none, false, ⟨false, some false, none⟩⟩],
        [⟨false, ⟨none, none⟩⟩], false, ⟨some true, none, none, none⟩, []⟩ ∧
    ((⟨"T", [⟨none, false, ⟨false, some false, none⟩⟩], [⟨false, ⟨none, none⟩⟩],
       false, ⟨some true, none, none, none⟩, []⟩ : Target).run false).checksRun = 1 ∧
    ((⟨"T", [⟨none, false, ⟨false, some false, none⟩⟩], [⟨false, ⟨none, none⟩⟩],
       false, ⟨some true, none, none, none⟩, []⟩ : Target).run false).actionsRun = 0 := by
  exact c4_check_soft_stop _ [] _ [] rfl rfl
    (fun p hp => absurd hp (List.not_mem_nil p)) rfl rfl (by decide) (by decide)

/-! ## C8: the daemon's overall deadline is armed once and bounds the run -/

/-- C8: with daemon mode on, a positive timeout `T`, a positive interval
`I`, and an iteration limit that is absent (`L = 0`) or not reachable
before the deadline, the deadline timer is unarmed initially, armed at the
first entry to the sleeping phase at absolute sleep-time 0 and never
re-armed afterwards (it stays `some 0` forever); the loop has terminated by
iteration `T / I + 1`; accumulated sleep time never exceeds `T`; and the
iteration limit is never the cause (the counter stays below `L` when a
limit is set). -/
theorem c8_daemon_deadline_armed_once (T I L : Nat) (hT : 0 < T) (hI : 0 < I)
    (hL : L = 0 ∨ T / I < L) :
    daemonInit.timeoutArmedAt = none ∧
    (∀ n, 1 ≤ n →
      ((daemonStep ⟨true, I, L, T⟩)^[n] daemonInit).timeoutArmedAt = some 0) ∧
    ((daemonStep ⟨true, I, L, T⟩)^[T / I + 1] daemonInit).running = false ∧
    (∀ n, ((daemonStep ⟨true, I, L, T⟩)^[n] daemonInit).now ≤ T) ∧
    (∀ n, L = 0 ∨
      ((daemonStep ⟨true, I, L, T⟩)^[n] daemonInit).iterationCount < L) := by
  have hstop : ∀ s : DaemonState, s.running = false →
      daemonStep ⟨true, I, L, T⟩ s = s := by
    intro s hs
    unfold daemonStep
    rw [hs]
    rfl
  have hkey : ∀ k,
      ((daemonStep ⟨true, I, L, T⟩)^[k + 1] daemonInit).timeoutArmedAt = some 0 ∧
      ((daemonStep ⟨true, I, L, T⟩)^[k + 1] daemonInit).now ≤ T ∧
      ((daemonStep ⟨true, I, L, T⟩)^[k + 1] daemonInit).iterationCount ≤ T / I ∧
      (((daemonStep ⟨true, I, L, T⟩)^[k + 1] daemonInit).running = true →
        (daemonStep ⟨true, I, L, T⟩)^[k + 1] daemonInit =
          ⟨true, k + 1, some 0, (k + 1) * I⟩ ∧ (k + 1) * I ≤ T) := by
    intro k
    induction k with
    | zero =>
      rw [Function.iterate_one]
      by_cases hTI : T < I
      · have hstep : daemonStep ⟨true, I, L, T⟩ daemonInit =
            ⟨false, 0, some 0, 0 + T⟩ := by
          unfold daemonStep daemonInit
          simp [hT, hTI]
        rw [hstep]
        refine ⟨rfl, by simp, by simp, by simp⟩
      · have hstep : daemonStep ⟨true, I, L, T⟩ daemonInit =
            ⟨!(L > 0 && 1 ≥ L), 1, some 0, 0 + I⟩ := by
          unfold daemonStep daemonInit
          simp [hT, hTI]
        have hIT : I ≤ T := by omega
        have h1 : 1 ≤ T / I := by
          rw [Nat.le_div_iff_mul_le hI]
          simpa using hIT
        rw [hstep]
        refine ⟨rfl, by simpa using hIT, by simpa using h1, ?_⟩
        intro _
        constructor
        · have : (L > 0 && 1 ≥ L) = false := by
            rcases hL with h | h
            · simp [h]
            · have : 1 < L := lt_of_le_of_lt (by omega) (lt_of_le_of_lt h1 h)
              simp only [Bool.and_eq_false_iff]
              right
              simp
              omega
          rw [this]
          simp
        · simpa using hIT
    | succ k ih =>
      rw [Function.iterate_succ_apply']
      obtain ⟨iha, ihn, ihc, ihr⟩ := ih
      cases hr : ((daemonStep ⟨true, I, L, T⟩)^[k + 1] daemonInit).running with
      | false =>
        rw [hstop _ hr]
        refine ⟨iha, ihn, ihc, fun h => ?_⟩
        rw [h] at hr
        simp at hr
      | true =>
        obtain ⟨heq, hle⟩ := ihr hr
        rw [heq]
        by_cases hTI : T < (k + 1) * I + I
        · have hstep : daemonStep ⟨true, I, L, T⟩ ⟨true, k + 1, some 0, (k + 1) * I⟩ =
              ⟨false, k + 1, some 0, 0 + T⟩ := by
            unfold daemonStep
            simp [hTI]
          rw [hstep]
          refine ⟨rfl, by simp, ?_, by simp⟩
          simp only
          rw [Nat.le_div_iff_mul_le hI]
          exact hle
        · have hstep : daemonStep ⟨true, I, L, T⟩ ⟨true, k + 1, some 0, (k + 1) * I⟩ =
              ⟨!(L > 0 && k + 1 + 1 ≥ L), k + 1 + 1, some 0, (k + 1) * I + I⟩ := by
            unfold daemonStep
            simp [hTI]
          have hle2 : (k + 2) * I ≤ T := by
            rw [Nat.succ_mul]
            omega
          have hc2 : k + 2 ≤ T / I := by
            rw [Nat.le_div_iff_mul_le hI]
            exact hle2
          rw [hstep]
          refine ⟨rfl, ?_, by simpa using hc2, ?_⟩
          · simp only
            calc (k + 1) * I + I = (k + 2) * I := by ring
            _ ≤ T := hle2
          · intro _
            constructor
            · have : (L > 0 && k + 1 + 1 ≥ L) = false := by
                rcases hL with h | h
                · simp [h]
                · have : k + 2 < L := lt_of_le_of_lt hc2 h
                  simp only [Bool.and_eq_false_iff]
                  right
                  simp
                  omega
              rw [this]
              simp only [Bool.not_false]
              congr 1
              ring
            · exact hle2
  refine ⟨rfl, ?_, ?_, ?_, ?_⟩
  · intro n hn
    obtain ⟨k, rfl⟩ : ∃ k, n = k + 1 := ⟨n - 1, by omega⟩
    exact (hkey k).1
  · by_contra hrun
    have hr : ((daemonStep ⟨true, I, L, T⟩)^[T / I + 1] daemonInit).running = true := by
      cases h : ((daemonStep ⟨true, I, L, T⟩)^[T / I + 1] daemonInit).running
      · exact absurd h hrun
      · rfl
    obtain ⟨-, hle⟩ := (hkey (T / I)).2.2.2 hr
    have : T / I + 1 ≤ T / I := by
      rw [Nat.le_div_iff_mul_le hI]
      exact hle
    omega
  · intro n
    cases n with
    | zero => simp [daemonInit]
    | succ k => exact (hkey k).2.1
  · intro n
    rcases hL with h | h
    · exact Or.inl h
    · right
      cases n with
      | zero =>
        have : 0 < L := lt_of_le_of_lt (Nat.zero_le _) h
        simpa [daemonInit] using this
      | succ k => exact lt_of_le_of_lt (hkey k).2.2.1 h

/-- Witness for C8: timeout 5 s, interval 2 s, no iteration limit. -/
theorem c8_daemon_deadline_armed_once_witness :
    daemonInit.timeoutArmedAt = none ∧
    (∀ n, 1 ≤ n →
      ((daemonStep ⟨true, 2, 0, 5⟩)^[n] daemonInit).timeoutArmedAt = some 0) ∧
    ((daemonStep ⟨true, 2, 0, 5⟩)^[5 / 2 + 1] daemonInit).running = false ∧
    (∀ n, ((daemonStep ⟨true, 2, 0, 5⟩)^[n] daemonInit).now ≤ 5) ∧
    (∀ n, (0 : Nat) = 0 ∨
      ((daemonStep ⟨true, 2, 0, 5⟩)^[n] daemonInit).iterationCount < 0) := by
  exact c8_daemon_deadline_armed_once 5 2 0 (by decide) (by decide) (Or.inl rfl)

/-! ## C10: a missing single object expands to nothing, without error -/

/-- C10: for an object-storage locator addressing a single object (path
neither empty nor ending in `/` after stripping the leading slash), a
non-existent object makes `handleCloudURL` return an empty expansion and
no error. -/
theorem c10_missing_object_silent (bucket : BlobBucket) (path : String)
    (mkURL : String → String) (floc : String)
    (hne : trimSlashPrefix path ≠ "")
    (hsl : strEndsWith (trimSlashPrefix path) "/" = false)
    (hex : bucket.keyExists (trimSlashPrefix path) = .ok false) :
    handleCloudURL bucket path mkURL floc = .ok [] := by
  unfold handleCloudURL
  dsimp only
  split
  · rename_i h
    rw [hsl] at h
    simp [hne] at h
  · rw [hex]

/-- Witness for C10: a bucket with no objects and locator path
`/missing.duck`. -/
theorem c10_missing_object_silent_witness :
    handleCloudURL ⟨fun _ => .ok [], fun _ => .ok false⟩ "/missing.duck"
      id "s3://bucket/missing.duck" = .ok [] := by
  exact c10_missing_object_silent _ _ _ _ (by decide) (by decide) rfl

end Duck
